import Mathlib

/-!
# Indexed binary min-heap (`minheap.c`)

A shallow embedding of the array-backed min-heap of `src/minheap.c` and a
verification of its specification.

Modelling conventions.

* C `int` values (priorities, identifiers, indices, `size`, `capacity`) are
  unbounded integers `Int`; signed overflow, which C leaves undefined, is not
  modelled.  A `void*` payload is a natural number (`0` is `NULL`).
* `heap->arr` and `heap->indexMap` are blocks of `capacity + 1` cells, as
  `newHeap` and `doubleCapacity` allocate them.  A block is a total map from
  cell index to content; every read and write checks the index against
  `0 .. capacity` and yields `Fault.outOfBounds` outside it.
* `calloc` returns zeroed cells.
* The recursion of `bubbleUp` and the loop of `bubbleDown` run on an explicit
  step budget; an exhausted budget yields `Fault.outOfFuel`.
-/

namespace MinHeapC

/-- The ways an execution of the embedded code can go wrong. -/
inductive Fault where
  | outOfBounds
  | outOfFuel
  deriving DecidableEq, Repr

/-- Modelled from the spec: the record `HeapNode` of the header `minheap.h`,
which is not part of the sources; the fields are those the code accesses
(`priority`, `value`, `id`). -/
structure HeapNode where
  priority : Int
  value : Nat
  id : Int
  deriving DecidableEq, Repr

/-- Modelled from the spec: the record `MinHeap` of the header `minheap.h`,
which is not part of the sources; the fields are those the code accesses
(`size`, `capacity`, `arr`, `indexMap`). -/
structure MinHeap where
  size : Int
  capacity : Int
  arr : Int → HeapNode
  indexMap : Int → Int

/-- Macro `ROOT_INDEX` (line 9). -/
def ROOT_INDEX : Int := 1

/-- Macro `NOTHING` (line 10), the absent marker of the index map. -/
def NOTHING : Int := -1

/-- A cell as `calloc` returns it. -/
def zeroNode : HeapNode := ⟨0, 0, 0⟩

/-- Whether `i` addresses a cell of a block of `cap + 1` cells. -/
def inBlock (cap i : Int) : Bool := decide (0 ≤ i) && decide (i ≤ cap)

/-- Read `heap->arr[i]`. -/
def readArr (heap : MinHeap) (i : Int) : Except Fault HeapNode :=
  if inBlock heap.capacity i then .ok (heap.arr i) else .error .outOfBounds

/-- Write `heap->arr[i] = x`. -/
def writeArr (heap : MinHeap) (i : Int) (x : HeapNode) : Except Fault MinHeap :=
  if inBlock heap.capacity i then .ok { heap with arr := Function.update heap.arr i x }
  else .error .outOfBounds

/-- Read `heap->indexMap[i]`. -/
def readMap (heap : MinHeap) (i : Int) : Except Fault Int :=
  if inBlock heap.capacity i then .ok (heap.indexMap i) else .error .outOfBounds

/-- Write `heap->indexMap[i] = x`. -/
def writeMap (heap : MinHeap) (i : Int) (x : Int) : Except Fault MinHeap :=
  if inBlock heap.capacity i then .ok { heap with indexMap := Function.update heap.indexMap i x }
  else .error .outOfBounds

/-- Function `isValidIndex` (lines 19-21). -/
def isValidIndex (heap : MinHeap) (maybeIdx : Int) : Bool :=
  decide (maybeIdx ≥ ROOT_INDEX) && decide (maybeIdx ≤ heap.size)

/-- Function `leftIdx` (lines 27-32). -/
def leftIdx (heap : MinHeap) (nodeIndex : Int) : Int :=
  if isValidIndex heap (2 * nodeIndex) then nodeIndex * 2 else NOTHING

/-- Function `rightIdx` (lines 38-43). -/
def rightIdx (heap : MinHeap) (nodeIndex : Int) : Int :=
  if isValidIndex heap (2 * nodeIndex + 1) then nodeIndex * 2 + 1 else NOTHING

/-- Function `parentIdx` (lines 48-53). -/
def parentIdx (heap : MinHeap) (nodeIndex : Int) : Int :=
  if isValidIndex heap nodeIndex then nodeIndex / 2 else NOTHING

/-- Function `priorityAt` (lines 59-62). -/
def priorityAt (heap : MinHeap) (nodeIndex : Int) : Except Fault Int :=
  (readArr heap nodeIndex).map HeapNode.priority

/-- Function `swap` (lines 68-76). -/
def swap (heap : MinHeap) (index1 index2 : Int) : Except Fault MinHeap :=
  if isValidIndex heap index1 && isValidIndex heap index2 then do
    let temp ← readArr heap index1
    let x2 ← readArr heap index2
    let h1 ← writeArr heap index1 x2
    let h2 ← writeArr h1 index2 temp
    let y1 ← readArr h2 index1
    let h3 ← writeMap h2 y1.id index1
    let y2 ← readArr h3 index2
    writeMap h3 y2.id index2
  else pure heap

/-- The recursion of `bubbleUp` (lines 82-91) on a step budget. -/
def bubbleUpAux : Nat → MinHeap → Int → Except Fault MinHeap
  | 0, _, _ => .error .outOfFuel
  | fuel + 1, heap, nodeIndex =>
    if isValidIndex heap nodeIndex then
      let parent := parentIdx heap nodeIndex
      if isValidIndex heap parent then do
        let pp ← priorityAt heap parent
        let pn ← priorityAt heap nodeIndex
        if pp > pn then do
          let h1 ← swap heap parent nodeIndex
          bubbleUpAux fuel h1 parent
        else pure heap
      else pure heap
    else pure heap

/-- Function `bubbleUp` (lines 82-91); the index halves at each call, so
`nodeIndex + 1` calls suffice. -/
def bubbleUp (heap : MinHeap) (nodeIndex : Int) : Except Fault MinHeap :=
  bubbleUpAux (nodeIndex.toNat + 1) heap nodeIndex

/-- The `while` loop of `bubbleDown` (lines 103-119) on a step budget. -/
def bubbleDownLoop : Nat → MinHeap → Int → Except Fault MinHeap
  | 0, _, _ => .error .outOfFuel
  | fuel + 1, heap, root =>
    if isValidIndex heap root then do
      let left := leftIdx heap root
      let right := rightIdx heap root
      let min := root
      let min ←
        if isValidIndex heap left then do
          let pl ← priorityAt heap left
          let pm ← priorityAt heap min
          pure (if pl < pm then left else min)
        else pure min
      let min ←
        if isValidIndex heap right then do
          let pr ← priorityAt heap right
          let pm ← priorityAt heap min
          pure (if pr < pm then right else min)
        else pure min
      if min ≠ root then do
        let h1 ← swap heap root min
        bubbleDownLoop fuel h1 min
      else pure heap
    else pure heap

/-- Function `bubbleDown` (lines 96-120); the position at least doubles at each
iteration, so `size + 1` iterations suffice. -/
def bubbleDown (heap : MinHeap) : Except Fault MinHeap :=
  if heap.size ≤ 1 then pure heap
  else bubbleDownLoop (heap.size.toNat + 1) heap ROOT_INDEX

/-- The first loop of `doubleCapacity` (lines 130-133): `n` iterations from
index `i`, reading the old blocks of `heap` (of `oldCap + 1` cells) and
writing the new ones (of `heap.capacity + 1` cells). -/
def copyLoop (heap : MinHeap) (oldCap : Int) :
    Nat → Int → (Int → HeapNode) × (Int → Int) → Except Fault ((Int → HeapNode) × (Int → Int))
  | 0, _, st => .ok st
  | n + 1, i, (newArr, newIndexMap) =>
    if inBlock oldCap i && inBlock heap.capacity i
        && inBlock heap.capacity (heap.arr i).id then
      copyLoop heap oldCap n (i + 1)
        (Function.update newArr i (heap.arr i), Function.update newIndexMap (heap.arr i).id i)
    else .error .outOfBounds

/-- The loop `for (...; i <= cap; i++) indexMap[i] = NOTHING` of
`doubleCapacity` (lines 134-136) and `newHeap` (lines 243-245): `n`
iterations from index `i` on a block of `cap + 1` cells. -/
def fillNothing (cap : Int) : Nat → Int → (Int → Int) → Except Fault (Int → Int)
  | 0, _, m => .ok m
  | n + 1, i, m =>
    if inBlock cap i then fillNothing cap n (i + 1) (Function.update m i NOTHING)
    else .error .outOfBounds

/-- Function `doubleCapacity` (lines 124-142). -/
def doubleCapacity (heap : MinHeap) : Except Fault MinHeap := do
  let oldCap := heap.capacity
  let heap := { heap with capacity := heap.capacity * 2 }
  let (newArr, newIndexMap) ←
    copyLoop heap oldCap heap.size.toNat 1 (fun _ => zeroNode, fun _ => 0)
  let newIndexMap ←
    fillNothing heap.capacity (heap.capacity - heap.size).toNat (heap.size + 1) newIndexMap
  pure { heap with arr := newArr, indexMap := newIndexMap }

/-- Function `getMin` (lines 151-154); it only reads, so the state it passes on is
the one it was given. -/
def getMin (heap : MinHeap) : Except Fault (HeapNode × MinHeap) := do
  let x ← readArr heap ROOT_INDEX
  pure (x, heap)

/-- Function `extractMin` (lines 159-168). -/
def extractMin (heap : MinHeap) : Except Fault (HeapNode × MinHeap) := do
  let root ← readArr heap ROOT_INDEX
  let h1 ← swap heap ROOT_INDEX heap.size
  let h2 ← writeMap h1 root.id NOTHING
  let h3 := { h2 with size := h2.size - 1 }
  let h4 ← bubbleDown h3
  pure (root, h4)

/-- Function `insert` (lines 174-186). -/
def insert (heap : MinHeap) (priority : Int) (value : Nat) : Except Fault MinHeap := do
  let heap ← if heap.size = heap.capacity then doubleCapacity heap else pure heap
  let heap := { heap with size := heap.size + 1 }
  let x ← readArr heap heap.size
  let heap ← writeArr heap heap.size { x with priority := priority }
  let x ← readArr heap heap.size
  let heap ← writeArr heap heap.size { x with value := value }
  let x ← readArr heap heap.size
  let heap ← writeArr heap heap.size { x with id := heap.size }
  let heap ← writeMap heap heap.size heap.size
  bubbleUp heap heap.size

/-- Function `decreasePriority` (lines 193-206). -/
def decreasePriority (heap : MinHeap) (id newPriority : Int) :
    Except Fault (Bool × MinHeap) := do
  let index ← readMap heap id
  if index = NOTHING then pure (false, heap)
  else do
    let p ← priorityAt heap index
    if newPriority > p then pure (false, heap)
    else do
      let x ← readArr heap index
      let heap ← writeArr heap index { x with priority := newPriority }
      let heap ← bubbleUp heap index
      pure (true, heap)

/-- Function `newHeap` (lines 234-247). -/
def newHeap (capacity : Int) : Except Fault MinHeap := do
  let indexMap ← fillNothing capacity (capacity + 1).toNat 0 (fun _ => 0)
  pure { size := 0, capacity := capacity, arr := fun _ => zeroNode, indexMap := indexMap }

/-! ## Runs of the interface -/

/-- Calls `insert` on each (priority, payload) of a list in turn. -/
def insertAll : MinHeap → List (Int × Nat) → Except Fault MinHeap
  | heap, [] => .ok heap
  | heap, (p, v) :: rest => do
    let h1 ← insert heap p v
    insertAll h1 rest

/-- Calls `extractMin` `n` times; the extracted nodes in extraction order. -/
def extractAll : Nat → MinHeap → Except Fault (List HeapNode × MinHeap)
  | 0, heap => .ok ([], heap)
  | n + 1, heap => do
    let (r, h1) ← extractMin heap
    let (rs, h2) ← extractAll n h1
    pure (r :: rs, h2)

/-- The heap states the interface can reach: `newHeap` with a positive
capacity, then `insert`, `extractMin` on a non-empty heap, and
`decreasePriority` with an identifier that addresses a cell of the index
map. -/
inductive Reachable : MinHeap → Prop
  | init (c : Int) (h : MinHeap) : 0 < c → newHeap c = .ok h → Reachable h
  | insert (h : MinHeap) (p : Int) (v : Nat) (h' : MinHeap) :
      Reachable h → insert h p v = .ok h' → Reachable h'
  | extractMin (h : MinHeap) (r : HeapNode) (h' : MinHeap) :
      Reachable h → 0 < h.size → extractMin h = .ok (r, h') → Reachable h'
  | decreasePriority (h : MinHeap) (id newPriority : Int) (b : Bool) (h' : MinHeap) :
      Reachable h → 0 ≤ id → id ≤ h.capacity →
      decreasePriority h id newPriority = .ok (b, h') → Reachable h'

/-- The heap states reached without `extractMin`: `newHeap` with a positive
capacity, then `insert` and `decreasePriority` with an identifier in
`1 .. capacity`; the list records the inserted (priority, payload) pairs in
insertion order. -/
inductive ReachableNoExtract : List (Int × Nat) → MinHeap → Prop
  | init (c : Int) (h : MinHeap) : 0 < c → newHeap c = .ok h → ReachableNoExtract [] h
  | insert (log : List (Int × Nat)) (h : MinHeap) (p : Int) (v : Nat) (h' : MinHeap) :
      ReachableNoExtract log h → insert h p v = .ok h' →
      ReachableNoExtract (log ++ [(p, v)]) h'
  | decreasePriority (log : List (Int × Nat)) (h : MinHeap) (id newPriority : Int) (b : Bool)
      (h' : MinHeap) :
      ReachableNoExtract log h → 1 ≤ id → id ≤ h.capacity →
      decreasePriority h id newPriority = .ok (b, h') → ReachableNoExtract log h'

/-! ## Sample runs -/

/-- The state an execution ends in; the empty state after a fault. -/
def stateOf (r : Except Fault MinHeap) : MinHeap :=
  match r with
  | .ok h => h
  | .error _ => ⟨0, 0, fun _ => zeroNode, fun _ => 0⟩

/-- The state an execution that also returns a value ends in; the empty
state after a fault. -/
def stateOf2 {α : Type} (r : Except Fault (α × MinHeap)) : MinHeap :=
  match r with
  | .ok (_, h) => h
  | .error _ => ⟨0, 0, fun _ => zeroNode, fun _ => 0⟩

/-- State after `newHeap(2)`. -/
def demo0 : MinHeap := stateOf (newHeap 2)

/-- Then `insert(10, 100)`: one node, identifier 1. -/
def demo1 : MinHeap := stateOf (insert demo0 10 100)

/-- Then `insert(20, 200)`: the heap is full, identifiers 1 and 2. -/
def demo2 : MinHeap := stateOf (insert demo1 20 200)

/-- Then `extractMin()`: the node of priority 20, identifier 2, remains. -/
def demo3 : MinHeap := stateOf2 (extractMin demo2)

/-- Then `insert(30, 300)`: the new node is given identifier 2 as well. -/
def demo4 : MinHeap := stateOf (insert demo3 30 300)

/-- Then `insert(40, 400)`, which doubles the capacity first. -/
def demo5 : MinHeap := stateOf (insert demo4 40 400)

/-- Instead of the last `insert`, `extractMin()` on `demo4`: the node of
priority 30, identifier 2, remains. -/
def demo6 : MinHeap := stateOf2 (extractMin demo4)

/-- The state after `decreasePriority(1, -5)` on `demo5`. -/
def demo7 : MinHeap := stateOf2 (decreasePriority demo5 1 (-5))


/-- After `demo2`, `insert(5, 500)`: the heap grows and the new node, of
identifier 3, rises to the root. -/
def demo8 : MinHeap := stateOf (insert demo2 5 500)

/-- Then `decreasePriority(2, 1)`: the node of identifier 2 rises to the
root. -/
def demo9 : MinHeap := stateOf2 (decreasePriority demo8 2 1)


/-- A three-node state whose root is larger than its two children, which
have equal priorities. -/
def tieHeap : MinHeap :=
  { size := 3
    capacity := 3
    arr := fun i =>
      if i = 1 then ⟨5, 0, 1⟩ else if i = 2 then ⟨3, 0, 2⟩ else if i = 3 then ⟨3, 0, 3⟩
      else zeroNode
    indexMap := fun i => if 1 ≤ i ∧ i ≤ 3 then i else NOTHING }

/-! ## Specification vocabulary -/

/-- The occupied nodes, positions `1 .. size` in order. -/
def nodes (h : MinHeap) : List HeapNode :=
  (List.range h.size.toNat).map fun (k : Nat) => h.arr ((k : Int) + 1)

/-- The multiset of (priority, payload) pairs of the occupied nodes. -/
def pairs (h : MinHeap) : Multiset (Int × Nat) :=
  Multiset.ofList ((nodes h).map fun x => (x.priority, x.value))

/-- The heap property: no occupied node below the root is smaller than its
parent. -/
def HeapProp (h : MinHeap) : Prop :=
  ∀ p : Int, 2 ≤ p → p ≤ h.size → (h.arr (p / 2)).priority ≤ (h.arr p).priority

/-- Memory safety of a heap state: the occupied cells lie inside the blocks
and carry identifiers that address a cell of the index map. -/
structure WellFormed (h : MinHeap) : Prop where
  size_nonneg : 0 ≤ h.size
  size_le : h.size ≤ h.capacity
  id_inBlock : ∀ p, 1 ≤ p → p ≤ h.size → 0 ≤ (h.arr p).id ∧ (h.arr p).id ≤ h.capacity

/-- The occupied nodes carry pairwise distinct identifiers. -/
def DistinctIds (h : MinHeap) : Prop :=
  ∀ p q : Int, 1 ≤ p → p ≤ h.size → 1 ≤ q → q ≤ h.size → p ≠ q →
    (h.arr p).id ≠ (h.arr q).id

/-- The index map is the exact inverse of the array: the occupied nodes
carry the identifiers `1 .. size`, the map sends each identifier to the
position of its node, and it holds `NOTHING` above `size`. -/
structure MapExact (h : MinHeap) : Prop where
  size_nonneg : 0 ≤ h.size
  size_le : h.size ≤ h.capacity
  fwd : ∀ p, 1 ≤ p → p ≤ h.size →
    1 ≤ (h.arr p).id ∧ (h.arr p).id ≤ h.size ∧ h.indexMap (h.arr p).id = p
  bwd : ∀ i, 1 ≤ i → i ≤ h.size →
    1 ≤ h.indexMap i ∧ h.indexMap i ≤ h.size ∧ (h.arr (h.indexMap i)).id = i
  absent : ∀ i, h.size < i → i ≤ h.capacity → h.indexMap i = NOTHING

/-- Every occupied node carries the payload of the insertion its identifier
numbers, and a priority no larger than the one it was inserted with. -/
def Logged (log : List (Int × Nat)) (h : MinHeap) : Prop :=
  ∀ x ∈ nodes h, ∃ e, log[(x.id - 1).toNat]? = some e ∧ x.value = e.2 ∧ x.priority ≤ e.1

/-- What every reachable state satisfies. -/
structure Inv (h : MinHeap) : Prop where
  cap_pos : 0 < h.capacity
  wf : WellFormed h
  map_range : ∀ j, 0 ≤ j → j ≤ h.capacity → -1 ≤ h.indexMap j ∧ h.indexMap j ≤ h.capacity
  heap : HeapProp h

/-! ## Fault-free descriptions of the mutators -/

/-- The state `swap` produces on two valid indices. -/
def swapState (h : MinHeap) (a b : Int) : MinHeap :=
  { h with
    arr := Function.update (Function.update h.arr a (h.arr b)) b (h.arr a)
    indexMap := Function.update (Function.update h.indexMap (h.arr b).id a) (h.arr a).id b }

/-- The state of `insert` just before it calls `bubbleUp`, from the state
`h` it has after the capacity test: the new node sits at position `size + 1`
under the identifier `size + 1`. -/
def insertMid (h : MinHeap) (priority : Int) (value : Nat) : MinHeap :=
  { size := h.size + 1
    capacity := h.capacity
    arr := Function.update h.arr (h.size + 1) ⟨priority, value, h.size + 1⟩
    indexMap := Function.update h.indexMap (h.size + 1) (h.size + 1) }

/-- The state of `extractMin` just before it calls `bubbleDown`: root and
last node exchanged, the old root's identifier marked absent, one node
fewer. -/
def extractMid (h : MinHeap) : MinHeap :=
  { size := h.size - 1
    capacity := h.capacity
    arr := (swapState h 1 h.size).arr
    indexMap := Function.update (swapState h 1 h.size).indexMap (h.arr 1).id NOTHING }

/-- The state of `decreasePriority` just before it calls `bubbleUp`: the
priority at `index` overwritten. -/
def decreaseMid (h : MinHeap) (index newPriority : Int) : MinHeap :=
  { h with arr := Function.update h.arr index { h.arr index with priority := newPriority } }

/-- What `bubbleUpAux` computes when no fault occurs. -/
def siftUp : Nat → MinHeap → Int → MinHeap
  | 0, h, _ => h
  | fuel + 1, h, i =>
    if 2 ≤ i ∧ i ≤ h.size ∧ (h.arr i).priority < (h.arr (i / 2)).priority then
      siftUp fuel (swapState h (i / 2) i) (i / 2)
    else h

/-- The position `bubbleDown` selects at position `r`: `r` itself or its
smaller child, a child winning only when strictly smaller. -/
def minChild (h : MinHeap) (r : Int) : Int :=
  let m := if 2 * r ≤ h.size ∧ (h.arr (2 * r)).priority < (h.arr r).priority then 2 * r else r
  if 2 * r + 1 ≤ h.size ∧ (h.arr (2 * r + 1)).priority < (h.arr m).priority then 2 * r + 1 else m

/-- What `bubbleDownLoop` computes when no fault occurs. -/
def siftDown : Nat → MinHeap → Int → MinHeap
  | 0, h, _ => h
  | fuel + 1, h, r =>
    if 1 ≤ r ∧ r ≤ h.size ∧ minChild h r ≠ r then
      siftDown fuel (swapState h r (minChild h r)) (minChild h r)
    else h

/-- The heap property everywhere except between `i` and its parent, with the
parent of `i` bounding the children of `i`: what `bubbleUp` at `i` starts
from. -/
structure UpInv (h : MinHeap) (i : Int) : Prop where
  others : ∀ p : Int, 2 ≤ p → p ≤ h.size → p ≠ i →
    (h.arr (p / 2)).priority ≤ (h.arr p).priority
  skip : ∀ c : Int, 2 ≤ i → c ≤ h.size → c / 2 = i →
    (h.arr (i / 2)).priority ≤ (h.arr c).priority

/-- The heap property everywhere except between `r` and its children, with
the parent of `r` bounding the children of `r`: what `bubbleDown` at `r`
starts from. -/
structure DownInv (h : MinHeap) (r : Int) : Prop where
  others : ∀ p : Int, 2 ≤ p → p ≤ h.size → p / 2 ≠ r →
    (h.arr (p / 2)).priority ≤ (h.arr p).priority
  skip : ∀ c : Int, 2 ≤ r → c ≤ h.size → c / 2 = r →
    (h.arr (r / 2)).priority ≤ (h.arr c).priority

/-! ## Elementary facts -/

theorem isValidIndex_iff (h : MinHeap) (i : Int) :
    isValidIndex h i = true ↔ 1 ≤ i ∧ i ≤ h.size := by
  simp [isValidIndex, ROOT_INDEX]

theorem isValidIndex_false_iff (h : MinHeap) (i : Int) :
    isValidIndex h i = false ↔ ¬ (1 ≤ i ∧ i ≤ h.size) := by
  rw [← isValidIndex_iff]; simp

theorem inBlock_iff (cap i : Int) : inBlock cap i = true ↔ 0 ≤ i ∧ i ≤ cap := by
  simp [inBlock]

theorem readArr_ok (h : MinHeap) (i : Int) (h0 : 0 ≤ i) (h1 : i ≤ h.capacity) :
    readArr h i = .ok (h.arr i) := by
  simp [readArr, (inBlock_iff _ _).2 ⟨h0, h1⟩]

theorem priorityAt_ok (h : MinHeap) (i : Int) (h0 : 0 ≤ i) (h1 : i ≤ h.capacity) :
    priorityAt h i = .ok (h.arr i).priority := by
  simp [priorityAt, readArr_ok h i h0 h1, Except.map]

theorem writeArr_ok (h : MinHeap) (i : Int) (x : HeapNode) (h0 : 0 ≤ i) (h1 : i ≤ h.capacity) :
    writeArr h i x = .ok { h with arr := Function.update h.arr i x } := by
  simp [writeArr, (inBlock_iff _ _).2 ⟨h0, h1⟩]

theorem readMap_ok (h : MinHeap) (i : Int) (h0 : 0 ≤ i) (h1 : i ≤ h.capacity) :
    readMap h i = .ok (h.indexMap i) := by
  simp [readMap, (inBlock_iff _ _).2 ⟨h0, h1⟩]

theorem writeMap_ok (h : MinHeap) (i x : Int) (h0 : 0 ≤ i) (h1 : i ≤ h.capacity) :
    writeMap h i x = .ok { h with indexMap := Function.update h.indexMap i x } := by
  simp [writeMap, (inBlock_iff _ _).2 ⟨h0, h1⟩]

/-! ## `swap` -/

@[simp] theorem swapState_size (h : MinHeap) (a b : Int) : (swapState h a b).size = h.size := rfl

@[simp] theorem swapState_capacity (h : MinHeap) (a b : Int) :
    (swapState h a b).capacity = h.capacity := rfl

theorem swapState_arr (h : MinHeap) (a b p : Int) :
    (swapState h a b).arr p = if p = b then h.arr a else if p = a then h.arr b else h.arr p := by
  simp [swapState, Function.update_apply]

theorem swapState_indexMap (h : MinHeap) (a b j : Int) :
    (swapState h a b).indexMap j =
      if j = (h.arr a).id then b else if j = (h.arr b).id then a else h.indexMap j := by
  simp [swapState, Function.update_apply]

theorem swap_invalid (h : MinHeap) (a b : Int)
    (hv : ¬ (1 ≤ a ∧ a ≤ h.size ∧ 1 ≤ b ∧ b ≤ h.size)) : swap h a b = .ok h := by
  have : (isValidIndex h a && isValidIndex h b) = false := by
    rw [Bool.and_eq_false_iff]
    by_contra hc
    push_neg at hc
    simp only [ne_eq, Bool.not_eq_false, isValidIndex_iff] at hc
    omega
  simp only [swap, this]
  rfl

theorem swap_valid (h : MinHeap) (wf : WellFormed h) (a b : Int)
    (ha : 1 ≤ a ∧ a ≤ h.size) (hb : 1 ≤ b ∧ b ≤ h.size) :
    swap h a b = .ok (swapState h a b) := by
  have hsz := wf.size_le
  have hida := wf.id_inBlock a ha.1 ha.2
  have hidb := wf.id_inBlock b hb.1 hb.2
  have va : isValidIndex h a = true := (isValidIndex_iff _ _).2 ha
  have vb : isValidIndex h b = true := (isValidIndex_iff _ _).2 hb
  have ba : inBlock h.capacity a = true := (inBlock_iff _ _).2 ⟨by omega, by omega⟩
  have bb : inBlock h.capacity b = true := (inBlock_iff _ _).2 ⟨by omega, by omega⟩
  have bia : inBlock h.capacity (h.arr a).id = true := (inBlock_iff _ _).2 hida
  have bib : inBlock h.capacity (h.arr b).id = true := (inBlock_iff _ _).2 hidb
  by_cases hab : a = b
  · subst hab
    simp [swap, va, readArr, writeArr, writeMap, ba, bia, bind, Except.bind, swapState]
  · simp [swap, va, vb, readArr, writeArr, writeMap, ba, bb, bia, bib, bind, Except.bind,
      swapState, Function.update_noteq hab, Function.update_noteq (Ne.symm hab)]

theorem swapState_wellFormed (h : MinHeap) (wf : WellFormed h) (a b : Int)
    (ha : 1 ≤ a ∧ a ≤ h.size) (hb : 1 ≤ b ∧ b ≤ h.size) : WellFormed (swapState h a b) := by
  refine ⟨wf.size_nonneg, wf.size_le, ?_⟩
  intro p hp1 hp2
  rw [swapState_arr]
  simp only [swapState_size, swapState_capacity] at *
  split_ifs
  · exact wf.id_inBlock a ha.1 ha.2
  · exact wf.id_inBlock b hb.1 hb.2
  · exact wf.id_inBlock p hp1 hp2

/-! ## `bubbleUp` and `bubbleDown` compute `siftUp` and `siftDown` -/

theorem bubbleUpAux_eq (fuel : Nat) : ∀ (h : MinHeap) (i : Int), WellFormed h →
    i.toNat < fuel → bubbleUpAux fuel h i = .ok (siftUp fuel h i) := by
  induction fuel with
  | zero => intro h i _ hf; omega
  | succ f ih =>
    intro h i wf hf
    have hsz := wf.size_le
    by_cases hv : 1 ≤ i ∧ i ≤ h.size
    · have v1 : isValidIndex h i = true := (isValidIndex_iff _ _).2 hv
      by_cases h2 : 2 ≤ i
      · have hpv : 1 ≤ i / 2 ∧ i / 2 ≤ h.size := by omega
        have v2 : isValidIndex h (i / 2) = true := (isValidIndex_iff _ _).2 hpv
        have p1 := priorityAt_ok h (i / 2) (by omega) (by omega)
        have p2 := priorityAt_ok h i (by omega) (by omega)
        by_cases hlt : (h.arr i).priority < (h.arr (i / 2)).priority
        · have hs := swap_valid h wf (i / 2) i hpv hv
          have hrec := ih (swapState h (i / 2) i) (i / 2)
            (swapState_wellFormed h wf _ _ hpv hv) (by omega)
          simp [bubbleUpAux, siftUp, v1, v2, parentIdx, p1, p2, bind, Except.bind, hlt, hs, hrec,
            h2, hv.2]
        · simp [bubbleUpAux, siftUp, v1, v2, parentIdx, p1, p2, bind, Except.bind, hlt, pure,
            Except.pure]
      · have v2 : isValidIndex h (i / 2) = false := by
          rw [isValidIndex_false_iff]; omega
        simp [bubbleUpAux, siftUp, v1, v2, parentIdx, h2, pure, Except.pure]
    · have v1 : isValidIndex h i = false := (isValidIndex_false_iff _ _).2 hv
      have : ¬ (2 ≤ i ∧ i ≤ h.size ∧ (h.arr i).priority < (h.arr (i / 2)).priority) := by
        intro hc; omega
      simp [bubbleUpAux, siftUp, v1, this, pure, Except.pure]

theorem bubbleUp_eq (h : MinHeap) (i : Int) (wf : WellFormed h) :
    bubbleUp h i = .ok (siftUp (i.toNat + 1) h i) :=
  bubbleUpAux_eq _ h i wf (Nat.lt_succ_self _)

theorem minChild_cases (h : MinHeap) (r : Int) :
    minChild h r = r ∨ (minChild h r = 2 * r ∧ 2 * r ≤ h.size) ∨
      (minChild h r = 2 * r + 1 ∧ 2 * r + 1 ≤ h.size) := by
  unfold minChild
  simp only
  split_ifs <;> simp_all

theorem bubbleDownLoop_step (f : Nat) (h : MinHeap) (r : Int) (wf : WellFormed h)
    (hr : 1 ≤ r) (hv : r ≤ h.size) :
    bubbleDownLoop (f + 1) h r =
      (if minChild h r ≠ r then
        (swap h r (minChild h r)).bind fun h1 => bubbleDownLoop f h1 (minChild h r)
       else .ok h) := by
  have hsz := wf.size_le
  have v1 : isValidIndex h r = true := (isValidIndex_iff _ _).2 ⟨hr, hv⟩
  have pr := priorityAt_ok h r (by omega) (by omega)
  have e : r * 2 = 2 * r := by ring
  have ne1 : isValidIndex h NOTHING = false := by
    rw [isValidIndex_false_iff]; simp [NOTHING]
  have n1 : (2 : Int) * r ≠ r := by omega
  have n2 : (2 : Int) * r + 1 ≠ r := by omega
  by_cases hl : 2 * r ≤ h.size
  · have vl : isValidIndex h (2 * r) = true := (isValidIndex_iff _ _).2 ⟨by omega, hl⟩
    have pl := priorityAt_ok h (2 * r) (by omega) (by omega)
    by_cases hrr : 2 * r + 1 ≤ h.size
    · have vr : isValidIndex h (2 * r + 1) = true :=
        (isValidIndex_iff _ _).2 ⟨by omega, hrr⟩
      have prr := priorityAt_ok h (2 * r + 1) (by omega) (by omega)
      by_cases c1 : (h.arr (2 * r)).priority < (h.arr r).priority
      · by_cases c2 : (h.arr (2 * r + 1)).priority < (h.arr (2 * r)).priority
        · simp [bubbleDownLoop, minChild, leftIdx, rightIdx, v1, vl, vr, pr, pl, prr, e, bind,
            Except.bind, pure, Except.pure, hl, hrr, c1, c2, n1, n2]
        · simp [bubbleDownLoop, minChild, leftIdx, rightIdx, v1, vl, vr, pr, pl, prr, e, bind,
            Except.bind, pure, Except.pure, hl, hrr, c1, c2, n1, n2]
      · by_cases c2 : (h.arr (2 * r + 1)).priority < (h.arr r).priority
        · simp [bubbleDownLoop, minChild, leftIdx, rightIdx, v1, vl, vr, pr, pl, prr, e, bind,
            Except.bind, pure, Except.pure, hl, hrr, c1, c2, n1, n2]
        · simp [bubbleDownLoop, minChild, leftIdx, rightIdx, v1, vl, vr, pr, pl, prr, e, bind,
            Except.bind, pure, Except.pure, hl, hrr, c1, c2, n1, n2]
    · have vr : isValidIndex h (2 * r + 1) = false := by rw [isValidIndex_false_iff]; omega
      by_cases c1 : (h.arr (2 * r)).priority < (h.arr r).priority
      · simp [bubbleDownLoop, minChild, leftIdx, rightIdx, v1, vl, vr, pr, pl, e, bind,
          Except.bind, pure, Except.pure, hl, hrr, c1, n1, n2, ne1]
      · simp [bubbleDownLoop, minChild, leftIdx, rightIdx, v1, vl, vr, pr, pl, e, bind,
          Except.bind, pure, Except.pure, hl, hrr, c1, n1, n2, ne1]
  · have vl : isValidIndex h (2 * r) = false := by rw [isValidIndex_false_iff]; omega
    have vr : isValidIndex h (2 * r + 1) = false := by rw [isValidIndex_false_iff]; omega
    have hrr : ¬ 2 * r + 1 ≤ h.size := by omega
    simp [bubbleDownLoop, minChild, leftIdx, rightIdx, v1, vl, vr, pr, e, bind,
      Except.bind, pure, Except.pure, hl, hrr, n1, n2, ne1]

theorem bubbleDownLoop_eq (fuel : Nat) : ∀ (h : MinHeap) (r : Int), WellFormed h →
    1 ≤ r → (h.size - r).toNat < fuel →
    bubbleDownLoop fuel h r = .ok (siftDown fuel h r) := by
  induction fuel with
  | zero => intro h r _ _ hf; omega
  | succ f ih =>
    intro h r wf hr hf
    by_cases hv : r ≤ h.size
    · rw [bubbleDownLoop_step f h r wf hr hv]
      by_cases hm : minChild h r = r
      · simp [siftDown, hm]
      · have hmv : 1 ≤ minChild h r ∧ minChild h r ≤ h.size ∧ r < minChild h r := by
          rcases minChild_cases h r with h1 | h1 | h1 <;> omega
        have hs := swap_valid h wf r (minChild h r) ⟨hr, hv⟩ ⟨hmv.1, hmv.2.1⟩
        have hrec := ih (swapState h r (minChild h r)) (minChild h r)
          (swapState_wellFormed h wf _ _ ⟨hr, hv⟩ ⟨hmv.1, hmv.2.1⟩) hmv.1
          (by simp only [swapState_size]; omega)
        simp [siftDown, hm, hs, hrec, Except.bind, hr, hv]
    · have v1 : isValidIndex h r = false := by rw [isValidIndex_false_iff]; omega
      have : ¬ (1 ≤ r ∧ r ≤ h.size ∧ minChild h r ≠ r) := by intro hc; omega
      simp [bubbleDownLoop, siftDown, v1, this, pure, Except.pure]

theorem bubbleDown_eq (h : MinHeap) (wf : WellFormed h) :
    bubbleDown h = .ok (siftDown (h.size.toNat + 1) h 1) := by
  unfold bubbleDown
  split_ifs with h1
  · have : ¬ (1 ≤ (1 : Int) ∧ (1 : Int) ≤ h.size ∧ minChild h 1 ≠ 1) := by
      intro hc
      rcases minChild_cases h 1 with h2 | h2 | h2 <;> omega
    rw [siftDown, if_neg this]
    rfl
  · exact bubbleDownLoop_eq _ h 1 wf (by norm_num) (by omega)

/-! ## Sifting keeps the shape of the state -/

theorem siftUp_size (fuel : Nat) : ∀ (h : MinHeap) (i : Int), (siftUp fuel h i).size = h.size := by
  induction fuel with
  | zero => intro h i; rfl
  | succ f ih =>
    intro h i
    rw [siftUp]
    split_ifs
    · rw [ih]; rfl
    · rfl

theorem siftUp_capacity (fuel : Nat) :
    ∀ (h : MinHeap) (i : Int), (siftUp fuel h i).capacity = h.capacity := by
  induction fuel with
  | zero => intro h i; rfl
  | succ f ih =>
    intro h i
    rw [siftUp]
    split_ifs
    · rw [ih]; rfl
    · rfl

theorem siftUp_wellFormed (fuel : Nat) :
    ∀ (h : MinHeap) (i : Int), WellFormed h → WellFormed (siftUp fuel h i) := by
  induction fuel with
  | zero => intro h i wf; exact wf
  | succ f ih =>
    intro h i wf
    rw [siftUp]
    split_ifs with hc
    · exact ih _ _ (swapState_wellFormed h wf _ _ (by omega) (by omega))
    · exact wf

theorem siftDown_size (fuel : Nat) :
    ∀ (h : MinHeap) (r : Int), (siftDown fuel h r).size = h.size := by
  induction fuel with
  | zero => intro h r; rfl
  | succ f ih =>
    intro h r
    rw [siftDown]
    split_ifs
    · rw [ih]; rfl
    · rfl

theorem siftDown_capacity (fuel : Nat) :
    ∀ (h : MinHeap) (r : Int), (siftDown fuel h r).capacity = h.capacity := by
  induction fuel with
  | zero => intro h r; rfl
  | succ f ih =>
    intro h r
    rw [siftDown]
    split_ifs
    · rw [ih]; rfl
    · rfl

theorem minChild_valid (h : MinHeap) (r : Int) (hr : 1 ≤ r) (hm : minChild h r ≠ r) :
    1 ≤ minChild h r ∧ minChild h r ≤ h.size ∧ r < minChild h r := by
  rcases minChild_cases h r with h1 | h1 | h1 <;> omega

theorem siftDown_wellFormed (fuel : Nat) :
    ∀ (h : MinHeap) (r : Int), WellFormed h → WellFormed (siftDown fuel h r) := by
  induction fuel with
  | zero => intro h r wf; exact wf
  | succ f ih =>
    intro h r wf
    rw [siftDown]
    split_ifs with hc
    · have := minChild_valid h r hc.1 hc.2.2
      exact ih _ _ (swapState_wellFormed h wf _ _ ⟨hc.1, hc.2.1⟩ ⟨this.1, this.2.1⟩)
    · exact wf

/-! ## Sifting restores the heap property -/

theorem upInv_swap (h : MinHeap) (i : Int) (inv : UpInv h i) (h2 : 2 ≤ i) (hs : i ≤ h.size)
    (hlt : (h.arr i).priority < (h.arr (i / 2)).priority) :
    UpInv (swapState h (i / 2) i) (i / 2) := by
  have hne : i / 2 ≠ i := by omega
  constructor
  · intro p hp2 hps hpne
    simp only [swapState_size] at hps
    by_cases hpi : p = i
    · subst hpi
      simp only [swapState_arr, if_true, hne, if_false]
      exact le_of_lt hlt
    · have e1 : (swapState h (i / 2) i).arr p = h.arr p := by
        simp [swapState_arr, hpi, hpne]
      rw [e1]
      by_cases hq : p / 2 = i
      · have e2 : (swapState h (i / 2) i).arr (p / 2) = h.arr (i / 2) := by
          simp [swapState_arr, hq]
        rw [e2]
        exact inv.skip p h2 hps hq
      · by_cases hq2 : p / 2 = i / 2
        · have e2 : (swapState h (i / 2) i).arr (p / 2) = h.arr i := by
            simp [swapState_arr, hq2, hne]
          rw [e2]
          have := inv.others p hp2 hps hpi
          rw [hq2] at this
          omega
        · have e2 : (swapState h (i / 2) i).arr (p / 2) = h.arr (p / 2) := by
            simp [swapState_arr, hq, hq2]
          rw [e2]
          exact inv.others p hp2 hps hpi
  · intro c hi2 hcs hc
    simp only [swapState_size] at hcs
    have e0 : (swapState h (i / 2) i).arr (i / 2 / 2) = h.arr (i / 2 / 2) := by
      have hd1 : i / 2 / 2 ≠ i := by omega
      have hd2 : i / 2 / 2 ≠ i / 2 := by omega
      simp [swapState_arr, hd1, hd2]
    rw [e0]
    have hgp := inv.others (i / 2) hi2 (by omega) hne
    by_cases hci : c = i
    · subst hci
      simp only [swapState_arr, if_true]
      exact hgp
    · have e1 : (swapState h (i / 2) i).arr c = h.arr c := by
        have hd3 : c ≠ i / 2 := by omega
        simp [swapState_arr, hci, hd3]
      rw [e1]
      have := inv.others c (by omega) hcs hci
      rw [hc] at this
      omega

theorem siftUp_heapProp (fuel : Nat) : ∀ (h : MinHeap) (i : Int), UpInv h i →
    1 ≤ i → i ≤ h.size → i.toNat < fuel → HeapProp (siftUp fuel h i) := by
  induction fuel with
  | zero => intro h i _ _ _ hf; omega
  | succ f ih =>
    intro h i inv h1 hs hf
    rw [siftUp]
    split_ifs with hc
    · exact ih _ _ (upInv_swap h i inv hc.1 hc.2.1 hc.2.2) (by omega)
        (by simp only [swapState_size]; omega) (by omega)
    · intro p hp2 hps
      by_cases hpi : p = i
      · subst hpi
        have : ¬ (h.arr p).priority < (h.arr (p / 2)).priority := fun hlt => hc ⟨hp2, hps, hlt⟩
        omega
      · exact inv.others p hp2 hps hpi

theorem minChild_le (h : MinHeap) (r c : Int) (hc : c ≤ h.size) (hcr : c / 2 = r) :
    (h.arr (minChild h r)).priority ≤ (h.arr c).priority := by
  have hcc : c = 2 * r ∨ c = 2 * r + 1 := by omega
  unfold minChild
  simp only
  rcases hcc with rfl | rfl
  · have h1 : 2 * r ≤ h.size := hc
    by_cases c1 : (h.arr (2 * r)).priority < (h.arr r).priority
    · simp only [h1, c1, and_self, if_true]
      split_ifs with c2
      · omega
      · exact le_refl _
    · simp only [h1, c1, and_false, if_false]
      split_ifs with c2
      · omega
      · omega
  · have h1 : 2 * r ≤ h.size := by omega
    by_cases c1 : (h.arr (2 * r)).priority < (h.arr r).priority
    · simp only [h1, c1, and_self, if_true, hc, true_and]
      split_ifs with c2
      · exact le_refl _
      · omega
    · simp only [h1, c1, and_false, if_false, hc, true_and]
      split_ifs with c2
      · exact le_refl _
      · omega

theorem minChild_le_self (h : MinHeap) (r : Int) :
    (h.arr (minChild h r)).priority ≤ (h.arr r).priority := by
  unfold minChild
  simp only
  by_cases c1 : 2 * r ≤ h.size ∧ (h.arr (2 * r)).priority < (h.arr r).priority
  · simp only [c1, and_self, if_true]
    split_ifs with c2
    · omega
    · omega
  · simp only [c1, if_false]
    split_ifs with c2
    · omega
    · exact le_refl _

theorem downInv_swap (h : MinHeap) (r : Int) (inv : DownInv h r) (hr : 1 ≤ r)
    (hm : minChild h r ≠ r) : DownInv (swapState h r (minChild h r)) (minChild h r) := by
  obtain ⟨hm1, hms, hlt⟩ := minChild_valid h r hr hm
  have hmr : minChild h r / 2 = r := by
    rcases minChild_cases h r with h1 | h1 | h1 <;> omega
  generalize hmdef : minChild h r = m at *
  have hself : (h.arr m).priority ≤ (h.arr r).priority := hmdef ▸ minChild_le_self h r
  have hsib : ∀ c, c ≤ h.size → c / 2 = r → (h.arr m).priority ≤ (h.arr c).priority :=
    fun c hc hcr => hmdef ▸ minChild_le h r c hc hcr
  constructor
  · intro p hp2 hps hpne
    simp only [swapState_size] at hps
    by_cases hpm : p = m
    · subst hpm
      have e1 : (swapState h r p).arr p = h.arr r := by simp [swapState_arr]
      have e2 : (swapState h r p).arr (p / 2) = h.arr p := by
        have hd4 : r ≠ p := by omega
        simp [swapState_arr, hmr, hd4]
      rw [e1, e2]; exact hself
    · by_cases hpr : p = r
      · subst hpr
        have e1 : (swapState h p m).arr p = h.arr m := by
          have hd5 : p ≠ m := by omega
          simp [swapState_arr, hd5]
        have e2 : (swapState h p m).arr (p / 2) = h.arr (p / 2) := by
          have hd6 : p / 2 ≠ m := by omega
          have hd7 : p / 2 ≠ p := by omega
          simp [swapState_arr, hd6, hd7]
        rw [e1, e2]
        exact inv.skip m hp2 hms hmr
      · have e1 : (swapState h r m).arr p = h.arr p := by simp [swapState_arr, hpm, hpr]
        rw [e1]
        by_cases hq : p / 2 = r
        · have e2 : (swapState h r m).arr (p / 2) = h.arr m := by
            have hd8 : r ≠ m := by omega
            simp [swapState_arr, hq, hd8]
          rw [e2]; exact hsib p hps hq
        · have e2 : (swapState h r m).arr (p / 2) = h.arr (p / 2) := by
            simp [swapState_arr, hq, hpne]
          rw [e2]; exact inv.others p hp2 hps hq
  · intro c _ hcs hc
    simp only [swapState_size] at hcs
    have e1 : (swapState h r m).arr (m / 2) = h.arr m := by
      have hd9 : r ≠ m := by omega
      simp [swapState_arr, hmr, hd9]
    have e2 : (swapState h r m).arr c = h.arr c := by
      have hd10 : c ≠ m := by omega
      have hd11 : c ≠ r := by omega
      simp [swapState_arr, hd10, hd11]
    rw [e1, e2]
    have := inv.others c (by omega) hcs (by omega)
    rw [hc] at this
    exact this

theorem siftDown_heapProp (fuel : Nat) : ∀ (h : MinHeap) (r : Int), DownInv h r →
    1 ≤ r → (h.size - r).toNat < fuel → HeapProp (siftDown fuel h r) := by
  induction fuel with
  | zero => intro h r _ _ hf; omega
  | succ f ih =>
    intro h r inv hr hf
    rw [siftDown]
    split_ifs with hc
    · obtain ⟨hm1, hms, hlt⟩ := minChild_valid h r hr hc.2.2
      exact ih _ _ (downInv_swap h r inv hr hc.2.2) hm1 (by simp only [swapState_size]; omega)
    · intro p hp2 hps
      by_cases hq : p / 2 = r
      · have hm : minChild h r = r := by
          by_contra hne
          exact hc ⟨hr, by omega, hne⟩
        have := minChild_le h r p hps hq
        rw [hm] at this
        rw [hq]; exact this
      · exact inv.others p hp2 hps hq

/-! ## The occupied nodes as a multiset -/

theorem nodes_length (h : MinHeap) : (nodes h).length = h.size.toNat := by
  simp [nodes]

theorem nodes_congr (h h' : MinHeap) (hs : h'.size = h.size)
    (ha : ∀ p, 1 ≤ p → p ≤ h.size → h'.arr p = h.arr p) : nodes h' = nodes h := by
  unfold nodes
  rw [hs]
  apply List.map_congr_left
  intro k hk
  rw [List.mem_range] at hk
  exact ha _ (by omega) (by omega)

theorem mem_nodes (h : MinHeap) (x : HeapNode) :
    x ∈ nodes h ↔ ∃ p, 1 ≤ p ∧ p ≤ h.size ∧ h.arr p = x := by
  unfold nodes
  rw [List.mem_map]
  constructor
  · rintro ⟨k, hk, rfl⟩
    rw [List.mem_range] at hk
    exact ⟨(k : Int) + 1, by omega, by omega, rfl⟩
  · rintro ⟨p, h1, h2, rfl⟩
    refine ⟨(p - 1).toNat, ?_, ?_⟩
    · rw [List.mem_range]; omega
    · congr 1; omega

theorem range_map_swap_perm (n a b : Nat) (ha : a < n) (hb : b < n) :
    ((List.range n).map (Equiv.swap a b)).Perm (List.range n) := by
  rw [List.perm_ext_iff_of_nodup ((List.nodup_range n).map (Equiv.swap a b).injective)
    (List.nodup_range n)]
  intro x
  simp only [List.mem_map, List.mem_range]
  constructor
  · rintro ⟨k, hk, rfl⟩
    rw [Equiv.swap_apply_def]
    split_ifs <;> omega
  · intro hx
    refine ⟨Equiv.swap a b x, ?_, Equiv.swap_apply_self a b x⟩
    rw [Equiv.swap_apply_def]
    split_ifs <;> omega

theorem swapState_nodes_perm (h : MinHeap) (a b : Int) (ha : 1 ≤ a ∧ a ≤ h.size)
    (hb : 1 ≤ b ∧ b ≤ h.size) : (nodes (swapState h a b)).Perm (nodes h) := by
  have e : nodes (swapState h a b) =
      ((List.range h.size.toNat).map (Equiv.swap (a - 1).toNat (b - 1).toNat)).map
        (fun k : Nat => h.arr ((k : Int) + 1)) := by
    unfold nodes
    rw [List.map_map]
    apply List.map_congr_left
    intro k _
    have ea : (((a - 1).toNat : Nat) : Int) + 1 = a := by omega
    have eb : (((b - 1).toNat : Nat) : Int) + 1 = b := by omega
    simp only [Function.comp, swapState_arr, Equiv.swap_apply_def]
    by_cases h1 : (k : Int) + 1 = b
    · have hk : k = (b - 1).toNat := by omega
      by_cases h2 : k = (a - 1).toNat
      · rw [if_pos h1, if_pos h2, eb]
        congr 1
        omega
      · rw [if_pos h1, if_neg h2, if_pos hk, ea]
    · have h1' : k ≠ (b - 1).toNat := by omega
      by_cases h2 : (k : Int) + 1 = a
      · have hk : k = (a - 1).toNat := by omega
        rw [if_neg h1, if_pos h2, if_pos hk, eb]
      · have h2' : k ≠ (a - 1).toNat := by omega
        rw [if_neg h1, if_neg h2, if_neg h2', if_neg h1']
  rw [e]
  exact (range_map_swap_perm _ _ _ (by omega) (by omega)).map _

theorem siftUp_nodes_perm (fuel : Nat) :
    ∀ (h : MinHeap) (i : Int), (nodes (siftUp fuel h i)).Perm (nodes h) := by
  induction fuel with
  | zero => intro h i; exact List.Perm.refl _
  | succ f ih =>
    intro h i
    rw [siftUp]
    split_ifs with hc
    · exact (ih _ _).trans (swapState_nodes_perm h _ _ (by omega) (by omega))
    · exact List.Perm.refl _

theorem siftDown_nodes_perm (fuel : Nat) :
    ∀ (h : MinHeap) (r : Int), (nodes (siftDown fuel h r)).Perm (nodes h) := by
  induction fuel with
  | zero => intro h r; exact List.Perm.refl _
  | succ f ih =>
    intro h r
    rw [siftDown]
    split_ifs with hc
    · have := minChild_valid h r hc.1 hc.2.2
      exact (ih _ _).trans (swapState_nodes_perm h _ _ ⟨hc.1, hc.2.1⟩ ⟨this.1, this.2.1⟩)
    · exact List.Perm.refl _

theorem pairs_eq_of_perm (h h' : MinHeap) (hp : (nodes h').Perm (nodes h)) :
    pairs h' = pairs h := by
  unfold pairs
  exact Quotient.sound (hp.map _)

/-! ## The root of a heap is a minimum -/

theorem heapProp_root_le (h : MinHeap) (hp : HeapProp h) :
    ∀ p : Int, 1 ≤ p → p ≤ h.size → (h.arr 1).priority ≤ (h.arr p).priority := by
  have key : ∀ n : Nat, ∀ p : Int, p.toNat = n → 1 ≤ p → p ≤ h.size →
      (h.arr 1).priority ≤ (h.arr p).priority := by
    intro n
    induction n using Nat.strong_induction_on with
    | _ n ih =>
      intro p hn h1 hs
      by_cases hp1 : p = 1
      · subst hp1; exact le_refl _
      · have a := ih (p / 2).toNat (by omega) (p / 2) rfl (by omega) (by omega)
        have b := hp p (by omega) hs
        omega
  intro p h1 hs
  exact key _ p rfl h1 hs

/-! ## The loops of `newHeap` and `doubleCapacity` -/

theorem fillNothing_ok (cap : Int) (n : Nat) : ∀ (i : Int) (m : Int → Int), 0 ≤ i →
    i + n ≤ cap + 1 →
    ∃ m', fillNothing cap n i m = .ok m' ∧
      ∀ j, m' j = if i ≤ j ∧ j < i + n then NOTHING else m j := by
  induction n with
  | zero =>
    intro i m _ _
    refine ⟨m, rfl, fun j => ?_⟩
    have : ¬ (i ≤ j ∧ j < i + ((0 : Nat) : Int)) := by omega
    rw [if_neg this]
  | succ n ih =>
    intro i m h0 h1
    have hb : inBlock cap i = true := (inBlock_iff _ _).2 ⟨h0, by omega⟩
    obtain ⟨m', hm', hval⟩ := ih (i + 1) (Function.update m i NOTHING) (by omega)
      (by push_cast at h1 ⊢; omega)
    refine ⟨m', by simp [fillNothing, hb, hm'], fun j => ?_⟩
    rw [hval j]
    by_cases hj : j = i
    · subst hj
      have c1 : ¬ (j + 1 ≤ j ∧ j < j + 1 + (n : Int)) := by omega
      have c2 : j ≤ j ∧ j < j + ((n + 1 : Nat) : Int) := by push_cast; omega
      rw [if_neg c1, if_pos c2, Function.update_same]
    · rw [Function.update_noteq hj]
      by_cases c : i + 1 ≤ j ∧ j < i + 1 + (n : Int)
      · have c2 : i ≤ j ∧ j < i + ((n + 1 : Nat) : Int) := by push_cast; omega
        rw [if_pos c, if_pos c2]
      · have c2 : ¬ (i ≤ j ∧ j < i + ((n + 1 : Nat) : Int)) := by push_cast; omega
        rw [if_neg c, if_neg c2]

theorem copyLoop_ok (h : MinHeap) (oldCap : Int) (n : Nat) :
    ∀ (i : Int) (st : (Int → HeapNode) × (Int → Int)), 0 ≤ i →
    i + n ≤ oldCap + 1 → i + n ≤ h.capacity + 1 →
    (∀ p, i ≤ p → p < i + n → 0 ≤ (h.arr p).id ∧ (h.arr p).id ≤ h.capacity) →
    ∃ na nm, copyLoop h oldCap n i st = .ok (na, nm) ∧
      (∀ p, na p = if i ≤ p ∧ p < i + n then h.arr p else st.1 p) ∧
      (∀ j, nm j = st.2 j ∨ (i ≤ nm j ∧ nm j < i + n ∧ (h.arr (nm j)).id = j)) := by
  induction n with
  | zero =>
    intro i st _ _ _ _
    refine ⟨st.1, st.2, rfl, fun p => ?_, fun j => Or.inl rfl⟩
    have : ¬ (i ≤ p ∧ p < i + ((0 : Nat) : Int)) := by omega
    rw [if_neg this]
  | succ n ih =>
    intro i st h0 h1 h2 hid
    obtain ⟨a0, m0⟩ := st
    have b1 : inBlock oldCap i = true := (inBlock_iff _ _).2 ⟨h0, by omega⟩
    have b2 : inBlock h.capacity i = true := (inBlock_iff _ _).2 ⟨h0, by omega⟩
    have b3 : inBlock h.capacity (h.arr i).id = true :=
      (inBlock_iff _ _).2 (hid i (le_refl _) (by omega))
    obtain ⟨na, nm, hrun, harr, hmap⟩ := ih (i + 1)
      (Function.update a0 i (h.arr i), Function.update m0 (h.arr i).id i) (by omega)
      (by push_cast at h1 ⊢; omega) (by push_cast at h2 ⊢; omega)
      (fun p hp1 hp2 => hid p (by omega) (by push_cast; omega))
    refine ⟨na, nm, by simp [copyLoop, b1, b2, b3, hrun], fun p => ?_, fun j => ?_⟩
    · rw [harr p]
      by_cases hp : p = i
      · subst hp
        have c1 : ¬ (p + 1 ≤ p ∧ p < p + 1 + (n : Int)) := by omega
        have c2 : p ≤ p ∧ p < p + ((n + 1 : Nat) : Int) := by push_cast; omega
        rw [if_neg c1, if_pos c2]
        simp
      · by_cases c : i + 1 ≤ p ∧ p < i + 1 + (n : Int)
        · have c2 : i ≤ p ∧ p < i + ((n + 1 : Nat) : Int) := by push_cast; omega
          rw [if_pos c, if_pos c2]
        · have c2 : ¬ (i ≤ p ∧ p < i + ((n + 1 : Nat) : Int)) := by push_cast; omega
          rw [if_neg c, if_neg c2]
          simp [Function.update_noteq hp]
    · simp only at hmap
      rcases hmap j with hj | ⟨hj1, hj2, hj3⟩
      · by_cases hji : j = (h.arr i).id
        · right
          rw [hj, hji, Function.update_same]
          exact ⟨le_refl _, by push_cast; omega, rfl⟩
        · left
          rw [hj]
          simp [Function.update_noteq hji]
      · right
        exact ⟨by omega, by push_cast; omega, hj3⟩

/-! ## `newHeap` and `doubleCapacity` -/

theorem newHeap_ok (c : Int) (hc : 0 ≤ c) :
    ∃ h, newHeap c = .ok h ∧ h.size = 0 ∧ h.capacity = c ∧ (∀ p, h.arr p = zeroNode) ∧
      ∀ j, h.indexMap j = if 0 ≤ j ∧ j ≤ c then NOTHING else 0 := by
  obtain ⟨m, hm, hval⟩ := fillNothing_ok c (c + 1).toNat 0 (fun _ => 0) (le_refl _) (by omega)
  refine ⟨_, by simp [newHeap, hm, bind, Except.bind, pure, Except.pure]; rfl, rfl, rfl,
    fun _ => rfl, fun j => ?_⟩
  show m j = _
  rw [hval j]
  by_cases c1 : 0 ≤ j ∧ j ≤ c
  · have c2 : 0 ≤ j ∧ j < 0 + (((c + 1).toNat : Nat) : Int) := by omega
    rw [if_pos c1, if_pos c2]
  · have c2 : ¬ (0 ≤ j ∧ j < 0 + (((c + 1).toNat : Nat) : Int)) := by omega
    rw [if_neg c1, if_neg c2]

theorem doubleCapacity_ok (h : MinHeap) (wf : WellFormed h) :
    ∃ h', doubleCapacity h = .ok h' ∧ h'.size = h.size ∧ h'.capacity = h.capacity * 2 ∧
      (∀ p, h'.arr p = if 1 ≤ p ∧ p ≤ h.size then h.arr p else zeroNode) ∧
      (∀ j, h'.indexMap j = NOTHING ∨ h'.indexMap j = 0 ∨
        (1 ≤ h'.indexMap j ∧ h'.indexMap j ≤ h.size ∧ (h.arr (h'.indexMap j)).id = j)) ∧
      (∀ j, h.size < j → j ≤ h.capacity * 2 → h'.indexMap j = NOTHING) := by
  have hs0 := wf.size_nonneg
  have hsz := wf.size_le
  obtain ⟨na, nm, hrun, harr, hmap⟩ :=
    copyLoop_ok { h with capacity := h.capacity * 2 } h.capacity h.size.toNat 1
      (fun _ => zeroNode, fun _ => 0) (by norm_num) (by omega) (by simp only; omega)
      (fun p hp1 hp2 => by
        have := wf.id_inBlock p hp1 (by omega)
        simp only
        omega)
  obtain ⟨m', hm', hval⟩ := fillNothing_ok (h.capacity * 2) (h.capacity * 2 - h.size).toNat
    (h.size + 1) nm (by omega) (by omega)
  refine ⟨{ size := h.size, capacity := h.capacity * 2, arr := na, indexMap := m' }, ?_, rfl, rfl,
    fun p => ?_, fun j => ?_, fun j hj1 hj2 => ?_⟩
  · simp [doubleCapacity, hrun, hm', bind, Except.bind, pure, Except.pure]
  · show na p = _
    rw [harr p]
    by_cases c : 1 ≤ p ∧ p ≤ h.size
    · have c2 : 1 ≤ p ∧ p < 1 + ((h.size.toNat : Nat) : Int) := by omega
      rw [if_pos c, if_pos c2]
    · have c2 : ¬ (1 ≤ p ∧ p < 1 + ((h.size.toNat : Nat) : Int)) := by omega
      rw [if_neg c, if_neg c2]
  · show m' j = NOTHING ∨ m' j = 0 ∨ (1 ≤ m' j ∧ m' j ≤ h.size ∧ (h.arr (m' j)).id = j)
    rw [hval j]
    split_ifs
    · exact Or.inl rfl
    · rcases hmap j with hj | ⟨hj1, hj2, hj3⟩
      · exact Or.inr (Or.inl hj)
      · exact Or.inr (Or.inr ⟨hj1, by omega, hj3⟩)
  · show m' j = NOTHING
    rw [hval j]
    have c : h.size + 1 ≤ j ∧ j < h.size + 1 + (((h.capacity * 2 - h.size).toNat : Nat) : Int) := by
      omega
    rw [if_pos c]

/-! ## The mutators, fault-free -/

theorem ok_bind {α β : Type} (a : α) (f : α → Except Fault β) :
    (Except.ok a >>= f) = f a := rfl

theorem pure_bind_ok {α β : Type} (a : α) (f : α → Except Fault β) :
    ((pure a : Except Fault α) >>= f) = f a := rfl

theorem insert_tail (h h1 : MinHeap) (p : Int) (v : Nat)
    (hg : (if h.size = h.capacity then doubleCapacity h else pure h) = .ok h1)
    (h0 : 0 ≤ h1.size) (hroom : h1.size + 1 ≤ h1.capacity)
    (hid : ∀ q, 1 ≤ q → q ≤ h1.size → 0 ≤ (h1.arr q).id ∧ (h1.arr q).id ≤ h1.capacity) :
    WellFormed (insertMid h1 p v) ∧
      insert h p v =
        .ok (siftUp ((h1.size + 1).toNat + 1) (insertMid h1 p v) (h1.size + 1)) := by
  have wf : WellFormed (insertMid h1 p v) := by
    refine ⟨by simp only [insertMid]; omega, by simp only [insertMid]; omega, ?_⟩
    intro q hq1 hq2
    simp only [insertMid] at hq2 ⊢
    by_cases hq : q = h1.size + 1
    · subst hq
      simp only [Function.update_same]
      omega
    · rw [Function.update_noteq hq]
      exact hid q hq1 (by omega)
  refine ⟨wf, ?_⟩
  have hb := bubbleUp_eq (insertMid h1 p v) (h1.size + 1) wf
  have b1 : inBlock h1.capacity (h1.size + 1) = true := (inBlock_iff _ _).2 ⟨by omega, hroom⟩
  unfold insert
  by_cases hfull : h.size = h.capacity
  · rw [if_pos hfull] at hg
    simp only [if_pos hfull, hg, ok_bind, readArr, writeArr, writeMap, b1, if_true,
      Function.update_same, Function.update_idem]
    exact hb
  · rw [if_neg hfull] at hg
    simp only [if_neg hfull, hg, ok_bind, readArr, writeArr, writeMap, b1, if_true,
      Function.update_same, Function.update_idem]
    exact hb

theorem insert_ok (h : MinHeap) (p : Int) (v : Nat) (wf : WellFormed h) (hc : 0 < h.capacity) :
    ∃ h1, h1.size = h.size ∧ h.capacity ≤ h1.capacity ∧
      (h1.capacity = h.capacity ∨ h1.capacity = h.capacity * 2) ∧
      (∀ q, 1 ≤ q → q ≤ h.size → h1.arr q = h.arr q) ∧
      (∀ j, 0 ≤ j → j ≤ h1.capacity →
        (0 ≤ j ∧ j ≤ h.capacity ∧ h1.indexMap j = h.indexMap j) ∨
        (-1 ≤ h1.indexMap j ∧ h1.indexMap j ≤ h.size)) ∧
      WellFormed (insertMid h1 p v) ∧
      insert h p v = .ok (siftUp ((h.size + 1).toNat + 1) (insertMid h1 p v) (h.size + 1)) := by
  have hs0 := wf.size_nonneg
  have hsz := wf.size_le
  by_cases hfull : h.size = h.capacity
  · obtain ⟨h1, hrun, hs, hcap, harr, hmap, _⟩ := doubleCapacity_ok h wf
    have hg : (if h.size = h.capacity then doubleCapacity h else pure h) = .ok h1 := by
      rw [if_pos hfull, hrun]
    have harr' : ∀ q, 1 ≤ q → q ≤ h.size → h1.arr q = h.arr q := by
      intro q hq1 hq2
      rw [harr q, if_pos ⟨hq1, hq2⟩]
    obtain ⟨wf1, hins⟩ := insert_tail h h1 p v hg (by omega) (by omega) (by
      intro q hq1 hq2
      rw [harr' q hq1 (by omega), hcap]
      have := wf.id_inBlock q hq1 (by omega)
      omega)
    refine ⟨h1, hs, by omega, Or.inr hcap, harr', ?_, wf1, by rw [hins, hs]⟩
    intro j _ _
    right
    rcases hmap j with hj | hj | hj
    · rw [hj]; simp only [NOTHING]; omega
    · omega
    · omega
  · have hg : (if h.size = h.capacity then doubleCapacity h else pure h) = .ok h := by
      rw [if_neg hfull]; rfl
    obtain ⟨wf1, hins⟩ := insert_tail h h p v hg hs0 (by omega) wf.id_inBlock
    exact ⟨h, rfl, le_refl _, Or.inl rfl, fun _ _ _ => rfl,
      fun j hj0 hj1 => Or.inl ⟨hj0, hj1, rfl⟩, wf1, hins⟩

theorem extractMid_wellFormed (h : MinHeap) (wf : WellFormed h) (hs : 0 < h.size) :
    WellFormed (extractMid h) := by
  have hsz := wf.size_le
  refine ⟨by simp only [extractMid]; omega, by simp only [extractMid]; omega, ?_⟩
  intro q hq1 hq2
  simp only [extractMid] at hq2 ⊢
  exact (swapState_wellFormed h wf 1 h.size (by omega) (by omega)).id_inBlock q hq1
    (by simp only [swapState_size]; omega)

theorem extractMin_ok (h : MinHeap) (wf : WellFormed h) (hs : 0 < h.size) :
    extractMin h = .ok (h.arr 1, siftDown ((h.size - 1).toNat + 1) (extractMid h) 1) := by
  have hsz := wf.size_le
  have hr := readArr_ok h 1 (by norm_num) (by omega)
  have hsw := swap_valid h wf 1 h.size (by omega) (by omega)
  have hid := wf.id_inBlock 1 (le_refl _) (by omega)
  have hw := writeMap_ok (swapState h 1 h.size) (h.arr 1).id NOTHING hid.1 hid.2
  have hbd := bubbleDown_eq (extractMid h) (extractMid_wellFormed h wf hs)
  unfold extractMin
  simp only [ROOT_INDEX, hr, hsw, hw, ok_bind]
  change (bubbleDown (extractMid h) >>= _) = _
  rw [hbd, ok_bind]
  rfl

theorem decreaseMid_wellFormed (h : MinHeap) (wf : WellFormed h) (index np : Int) :
    WellFormed (decreaseMid h index np) := by
  refine ⟨wf.size_nonneg, wf.size_le, ?_⟩
  intro q hq1 hq2
  simp only [decreaseMid] at hq2 ⊢
  by_cases hq : q = index
  · subst hq
    simp only [Function.update_same]
    exact wf.id_inBlock q hq1 hq2
  · rw [Function.update_noteq hq]
    exact wf.id_inBlock q hq1 hq2

theorem decreasePriority_ok (h : MinHeap) (id np : Int) (wf : WellFormed h)
    (hid0 : 0 ≤ id) (hid1 : id ≤ h.capacity)
    (hidx : h.indexMap id ≠ NOTHING → 0 ≤ h.indexMap id ∧ h.indexMap id ≤ h.capacity) :
    decreasePriority h id np =
      .ok (if h.indexMap id = NOTHING then (false, h)
        else if np > (h.arr (h.indexMap id)).priority then (false, h)
        else (true, siftUp ((h.indexMap id).toNat + 1) (decreaseMid h (h.indexMap id) np)
          (h.indexMap id))) := by
  have hr := readMap_ok h id hid0 hid1
  unfold decreasePriority
  simp only [hr, ok_bind]
  by_cases hn : h.indexMap id = NOTHING
  · simp [hn, pure, Except.pure]
  · have hb := hidx hn
    have hp := priorityAt_ok h (h.indexMap id) hb.1 hb.2
    have hra := readArr_ok h (h.indexMap id) hb.1 hb.2
    simp only [hn, if_false, hp, ok_bind]
    by_cases hgt : np > (h.arr (h.indexMap id)).priority
    · simp only [hgt, if_true]
      rfl
    · have hw := writeArr_ok h (h.indexMap id) { h.arr (h.indexMap id) with priority := np }
        hb.1 hb.2
      have hbu := bubbleUp_eq (decreaseMid h (h.indexMap id) np) (h.indexMap id)
        (decreaseMid_wellFormed h wf _ _)
      simp only [hgt, if_false, hra, hw, ok_bind]
      change (bubbleUp (decreaseMid h (h.indexMap id) np) (h.indexMap id) >>= _) = _
      rw [hbu, ok_bind]
      rfl

/-! ## Index-map entries stay inside the block -/

theorem swapState_map_range (h : MinHeap) (a b : Int) (ha : 1 ≤ a ∧ a ≤ h.size)
    (hb : 1 ≤ b ∧ b ≤ h.size) (hsz : h.size ≤ h.capacity)
    (hm : ∀ j, 0 ≤ j → j ≤ h.capacity → -1 ≤ h.indexMap j ∧ h.indexMap j ≤ h.capacity) :
    ∀ j, 0 ≤ j → j ≤ (swapState h a b).capacity →
      -1 ≤ (swapState h a b).indexMap j ∧ (swapState h a b).indexMap j ≤ (swapState h a b).capacity := by
  intro j hj0 hj1
  rw [swapState_indexMap, swapState_capacity]
  split_ifs
  · omega
  · omega
  · exact hm j hj0 hj1

theorem siftUp_map_range (fuel : Nat) : ∀ (h : MinHeap) (i : Int), h.size ≤ h.capacity →
    (∀ j, 0 ≤ j → j ≤ h.capacity → -1 ≤ h.indexMap j ∧ h.indexMap j ≤ h.capacity) →
    ∀ j, 0 ≤ j → j ≤ (siftUp fuel h i).capacity →
      -1 ≤ (siftUp fuel h i).indexMap j ∧ (siftUp fuel h i).indexMap j ≤ (siftUp fuel h i).capacity := by
  induction fuel with
  | zero => intro h i _ hm; exact hm
  | succ f ih =>
    intro h i hsz hm
    rw [siftUp]
    split_ifs with hc
    · exact ih _ _ hsz (swapState_map_range h _ _ (by omega) (by omega) hsz hm)
    · exact hm

theorem siftDown_map_range (fuel : Nat) : ∀ (h : MinHeap) (r : Int), h.size ≤ h.capacity →
    (∀ j, 0 ≤ j → j ≤ h.capacity → -1 ≤ h.indexMap j ∧ h.indexMap j ≤ h.capacity) →
    ∀ j, 0 ≤ j → j ≤ (siftDown fuel h r).capacity →
      -1 ≤ (siftDown fuel h r).indexMap j ∧
        (siftDown fuel h r).indexMap j ≤ (siftDown fuel h r).capacity := by
  induction fuel with
  | zero => intro h r _ hm; exact hm
  | succ f ih =>
    intro h r hsz hm
    rw [siftDown]
    split_ifs with hc
    · have := minChild_valid h r hc.1 hc.2.2
      exact ih _ _ hsz (swapState_map_range h _ _ ⟨hc.1, hc.2.1⟩ ⟨this.1, this.2.1⟩ hsz hm)
    · exact hm

/-! ## The states handed to the sifting routines -/

theorem insertMid_nodes (h h1 : MinHeap) (p : Int) (v : Nat) (hs0 : 0 ≤ h.size)
    (hs : h1.size = h.size) (harr : ∀ q, 1 ≤ q → q ≤ h.size → h1.arr q = h.arr q) :
    nodes (insertMid h1 p v) = nodes h ++ [⟨p, v, h.size + 1⟩] := by
  unfold nodes
  have e : (insertMid h1 p v).size.toNat = h.size.toNat + 1 := by
    simp only [insertMid]; omega
  rw [e, List.range_succ, List.map_append]
  congr 1
  · apply List.map_congr_left
    intro k hk
    rw [List.mem_range] at hk
    simp only [insertMid]
    rw [Function.update_noteq (by omega)]
    exact harr _ (by omega) (by omega)
  · simp only [insertMid, List.map_cons, List.map_nil, hs]
    have : ((h.size.toNat : Nat) : Int) + 1 = h.size + 1 := by omega
    rw [this, Function.update_same]

theorem insertMid_upInv (h h1 : MinHeap) (p : Int) (v : Nat) (hp : HeapProp h)
    (hs : h1.size = h.size) (harr : ∀ q, 1 ≤ q → q ≤ h.size → h1.arr q = h.arr q) :
    UpInv (insertMid h1 p v) (h.size + 1) := by
  constructor
  · intro q hq2 hqs hqne
    simp only [insertMid, hs] at hqs ⊢
    rw [Function.update_noteq (by omega), Function.update_noteq hqne,
      harr q (by omega) (by omega), harr (q / 2) (by omega) (by omega)]
    exact hp q hq2 (by omega)
  · intro c _ hcs hc
    simp only [insertMid, hs] at hcs
    omega

theorem extractMid_nodes (h : MinHeap) (hs : 0 < h.size) :
    nodes (swapState h 1 h.size) = nodes (extractMid h) ++ [h.arr 1] := by
  unfold nodes
  have e : (swapState h 1 h.size).size.toNat = (extractMid h).size.toNat + 1 := by
    simp only [swapState_size, extractMid]; omega
  rw [e, List.range_succ, List.map_append]
  congr 1
  simp only [List.map_cons, List.map_nil, extractMid]
  have : (((h.size - 1).toNat : Nat) : Int) + 1 = h.size := by omega
  rw [this, swapState_arr, if_pos rfl]

theorem extractMid_perm (h : MinHeap) (hs : 0 < h.size) :
    (nodes h).Perm (h.arr 1 :: nodes (extractMid h)) := by
  have h1 := swapState_nodes_perm h 1 h.size (by omega) (by omega)
  rw [extractMid_nodes h hs] at h1
  exact h1.symm.trans (List.perm_append_comm.trans (List.Perm.refl _))

theorem extractMid_downInv (h : MinHeap) (hp : HeapProp h) : DownInv (extractMid h) 1 := by
  constructor
  · intro q hq2 hqs hqne
    simp only [extractMid] at hqs ⊢
    have hd1 : q ≠ h.size := by omega
    have hd2 : q ≠ 1 := by omega
    have hd3 : q / 2 ≠ h.size := by omega
    rw [swapState_arr, swapState_arr, if_neg hd1, if_neg hd2, if_neg hd3, if_neg hqne]
    exact hp q hq2 (by omega)
  · intro c h2 _ _
    omega

theorem decreaseMid_nodes_outside (h : MinHeap) (index np : Int)
    (hout : ¬ (1 ≤ index ∧ index ≤ h.size)) : nodes (decreaseMid h index np) = nodes h := by
  refine nodes_congr h (decreaseMid h index np) rfl ?_
  intro q hq1 hq2
  simp only [decreaseMid]
  rw [Function.update_noteq (by omega)]

theorem decreaseMid_upInv (h : MinHeap) (index np : Int) (hp : HeapProp h)
    (hle : np ≤ (h.arr index).priority) : UpInv (decreaseMid h index np) index := by
  constructor
  · intro q hq2 hqs hqne
    simp only [decreaseMid] at hqs ⊢
    rw [Function.update_noteq hqne]
    by_cases hq : q / 2 = index
    · rw [hq, Function.update_same]
      have := hp q hq2 hqs
      rw [hq] at this
      simp only
      omega
    · rw [Function.update_noteq hq]
      exact hp q hq2 hqs
  · intro c h2 hcs hc
    simp only [decreaseMid] at hcs ⊢
    have hd1 : index / 2 ≠ index := by omega
    have hd2 : c ≠ index := by omega
    rw [Function.update_noteq hd1, Function.update_noteq hd2]
    have a := hp c (by omega) hcs
    have b := hp index h2 (by omega)
    rw [hc] at a
    omega

theorem heapProp_congr (h h' : MinHeap) (hs : h'.size = h.size)
    (ha : ∀ p, 1 ≤ p → p ≤ h.size → h'.arr p = h.arr p) (hp : HeapProp h) : HeapProp h' := by
  intro q hq2 hqs
  rw [hs] at hqs
  rw [ha q (by omega) hqs, ha (q / 2) (by omega) (by omega)]
  exact hp q hq2 hqs

/-! ## Every mutator keeps the invariant -/

theorem siftUp_invalid (fuel : Nat) (h : MinHeap) (i : Int) (hi : ¬ (1 ≤ i ∧ i ≤ h.size)) :
    siftUp fuel h i = h := by
  cases fuel with
  | zero => rfl
  | succ f =>
    rw [siftUp, if_neg]
    intro hc
    omega

theorem newHeap_inv (c : Int) (hc : 0 < c) :
    ∃ h, newHeap c = .ok h ∧ Inv h ∧ h.size = 0 ∧ h.capacity = c := by
  obtain ⟨h, hrun, hs, hcap, harr, hmap⟩ := newHeap_ok c (le_of_lt hc)
  refine ⟨h, hrun, ⟨by omega, ⟨by omega, by omega, fun p hp1 hp2 => by omega⟩, ?_, ?_⟩, hs, hcap⟩
  · intro j hj0 hj1
    rw [hmap j]
    have : NOTHING = -1 := rfl
    split_ifs <;> omega
  · intro p hp2 hps
    omega

theorem insert_inv (h : MinHeap) (p : Int) (v : Nat) (inv : Inv h) :
    ∃ h', insert h p v = .ok h' ∧ Inv h' ∧ h'.size = h.size + 1 ∧
      (nodes h').Perm (⟨p, v, h.size + 1⟩ :: nodes h) := by
  have hs0 := inv.wf.size_nonneg
  obtain ⟨h1, hs, hcap, _, harr, hmap, wf1, hrun⟩ := insert_ok h p v inv.wf inv.cap_pos
  have hsz1 := wf1.size_le
  have hmsz : (insertMid h1 p v).size = h.size + 1 := by simp only [insertMid, hs]
  have hmcap : (insertMid h1 p v).capacity = h1.capacity := rfl
  refine ⟨_, hrun, ⟨?_, siftUp_wellFormed _ _ _ wf1, ?_, ?_⟩, ?_, ?_⟩
  · rw [siftUp_capacity, hmcap]
    have := inv.cap_pos
    omega
  · apply siftUp_map_range _ _ _ hsz1
    intro j hj0 hj1
    rw [hmcap] at hj1 ⊢
    simp only [insertMid]
    by_cases hj : j = h1.size + 1
    · subst hj
      rw [Function.update_same]
      rw [hmsz, hmcap] at hsz1
      omega
    · rw [Function.update_noteq hj]
      rcases hmap j hj0 hj1 with ⟨a, b, c⟩ | ⟨a, b⟩
      · rw [c]
        have := inv.map_range j a b
        omega
      · rw [hmsz, hmcap] at hsz1
        omega
  · exact siftUp_heapProp _ _ _ (insertMid_upInv h h1 p v inv.heap hs harr) (by omega)
      (by rw [hmsz]) (by omega)
  · rw [siftUp_size, hmsz]
  · refine (siftUp_nodes_perm _ _ _).trans ?_
    rw [insertMid_nodes h h1 p v hs0 hs harr]
    exact List.perm_append_comm

theorem extractMin_spec (h : MinHeap) (wf : WellFormed h) (hp : HeapProp h) (hs : 0 < h.size) :
    ∃ h', extractMin h = .ok (h.arr 1, h') ∧ WellFormed h' ∧ HeapProp h' ∧
      h'.size = h.size - 1 ∧ h'.capacity = h.capacity ∧
      (nodes h).Perm (h.arr 1 :: nodes h') := by
  have wfm := extractMid_wellFormed h wf hs
  refine ⟨_, extractMin_ok h wf hs, siftDown_wellFormed _ _ _ wfm, ?_, ?_, ?_, ?_⟩
  · exact siftDown_heapProp _ _ _ (extractMid_downInv h hp) (le_refl _)
      (by simp only [extractMid]; omega)
  · rw [siftDown_size]; rfl
  · rw [siftDown_capacity]; rfl
  · exact (extractMid_perm h hs).trans ((siftDown_nodes_perm _ _ _).symm.cons _)

theorem extractMin_inv (h : MinHeap) (inv : Inv h) (hs : 0 < h.size) :
    ∃ h', extractMin h = .ok (h.arr 1, h') ∧ Inv h' := by
  have wfm := extractMid_wellFormed h inv.wf hs
  have hsz := inv.wf.size_le
  obtain ⟨h', hrun, wf', hp', _, hcap, _⟩ := extractMin_spec h inv.wf inv.heap hs
  refine ⟨h', hrun, ⟨by rw [hcap]; exact inv.cap_pos, wf', ?_, hp'⟩⟩
  have hrun2 := extractMin_ok h inv.wf hs
  rw [hrun] at hrun2
  injection hrun2 with hrun2
  injection hrun2 with _ hrun2
  rw [hrun2]
  apply siftDown_map_range _ _ _ wfm.size_le
  intro j hj0 hj1
  have hcm : (extractMid h).capacity = h.capacity := rfl
  rw [hcm] at hj1 ⊢
  simp only [extractMid]
  by_cases hj : j = (h.arr 1).id
  · subst hj
    rw [Function.update_same]
    simp only [NOTHING]
    omega
  · rw [Function.update_noteq hj]
    exact swapState_map_range h 1 h.size (by omega) (by omega) hsz inv.map_range j hj0 hj1

theorem decreasePriority_run (h : MinHeap) (id np : Int) (inv : Inv h)
    (hid0 : 0 ≤ id) (hid1 : id ≤ h.capacity) :
    decreasePriority h id np =
      .ok (if h.indexMap id = NOTHING then (false, h)
        else if np > (h.arr (h.indexMap id)).priority then (false, h)
        else (true, siftUp ((h.indexMap id).toNat + 1) (decreaseMid h (h.indexMap id) np)
          (h.indexMap id))) := by
  apply decreasePriority_ok h id np inv.wf hid0 hid1
  intro hn
  have := inv.map_range id hid0 hid1
  simp only [NOTHING] at hn
  omega

theorem decreaseMid_inv (h : MinHeap) (index np : Int) (inv : Inv h)
    (hle : np ≤ (h.arr index).priority) :
    Inv (siftUp (index.toNat + 1) (decreaseMid h index np) index) := by
  have wfm := decreaseMid_wellFormed h inv.wf index np
  refine ⟨?_, siftUp_wellFormed _ _ _ wfm, ?_, ?_⟩
  · rw [siftUp_capacity]; exact inv.cap_pos
  · exact siftUp_map_range _ _ _ wfm.size_le inv.map_range
  · by_cases hv : 1 ≤ index ∧ index ≤ h.size
    · exact siftUp_heapProp _ _ _ (decreaseMid_upInv h index np inv.heap hle) hv.1 hv.2
        (by omega)
    · rw [siftUp_invalid _ (decreaseMid h index np) index hv]
      refine heapProp_congr h _ rfl ?_ inv.heap
      intro q hq1 hq2
      simp only [decreaseMid]
      rw [Function.update_noteq (by omega)]

theorem decreasePriority_inv (h : MinHeap) (id np : Int) (inv : Inv h)
    (hid0 : 0 ≤ id) (hid1 : id ≤ h.capacity) :
    ∃ b h', decreasePriority h id np = .ok (b, h') ∧ Inv h' := by
  have hrun := decreasePriority_run h id np inv hid0 hid1
  by_cases hn : h.indexMap id = NOTHING
  · rw [if_pos hn] at hrun
    exact ⟨false, h, hrun, inv⟩
  · rw [if_neg hn] at hrun
    by_cases hgt : np > (h.arr (h.indexMap id)).priority
    · rw [if_pos hgt] at hrun
      exact ⟨false, h, hrun, inv⟩
    · rw [if_neg hgt] at hrun
      exact ⟨true, _, hrun, decreaseMid_inv h _ np inv (by omega)⟩

theorem reachable_inv (h : MinHeap) (hr : Reachable h) : Inv h := by
  induction hr with
  | init c h hc hrun =>
    obtain ⟨h0, hrun0, inv0, _⟩ := newHeap_inv c hc
    rw [hrun] at hrun0
    injection hrun0 with e
    rw [e]; exact inv0
  | insert h p v h' _ hrun ih =>
    obtain ⟨h0, hrun0, inv0, _⟩ := insert_inv h p v ih
    rw [hrun] at hrun0
    injection hrun0 with e
    rw [e]; exact inv0
  | extractMin h r h' _ hs hrun ih =>
    obtain ⟨h0, hrun0, inv0⟩ := extractMin_inv h ih hs
    rw [hrun] at hrun0
    injection hrun0 with e
    injection e with _ e
    rw [e]; exact inv0
  | decreasePriority h id np b h' _ h0 h1 hrun ih =>
    obtain ⟨b0, h0', hrun0, inv0⟩ := decreasePriority_inv h id np ih h0 h1
    rw [hrun] at hrun0
    injection hrun0 with e
    injection e with _ e
    rw [e]; exact inv0

/-! ## Runs of `insert` and `extractMin` -/

theorem insertAll_spec (L : List (Int × Nat)) : ∀ h : MinHeap, Inv h →
    ∃ h', insertAll h L = .ok h' ∧ Inv h' ∧ h'.size = h.size + L.length ∧
      ((nodes h').map fun x => (x.priority, x.value)).Perm
        (L ++ (nodes h).map fun x => (x.priority, x.value)) := by
  induction L with
  | nil =>
    intro h inv
    exact ⟨h, rfl, inv, by simp, by simp⟩
  | cons a rest ih =>
    intro h inv
    obtain ⟨p, v⟩ := a
    obtain ⟨h1, hrun, inv1, hs1, hperm1⟩ := insert_inv h p v inv
    obtain ⟨h', hrun', inv', hs', hperm'⟩ := ih h1 inv1
    refine ⟨h', ?_, inv', ?_, ?_⟩
    · simp only [insertAll, hrun, ok_bind, hrun']
    · rw [hs', hs1]
      simp only [List.length_cons]
      push_cast
      ring
    · refine hperm'.trans ?_
      have := (hperm1.map fun x => (x.priority, x.value))
      simp only [List.map_cons] at this
      refine (List.Perm.append_left rest this).trans ?_
      simp only [List.cons_append]
      exact List.perm_middle

theorem extractAll_spec (n : Nat) : ∀ h : MinHeap, WellFormed h → HeapProp h → h.size = n →
    ∃ out h', extractAll n h = .ok (out, h') ∧ out.Perm (nodes h) ∧
      List.Sorted (· ≤ ·) (out.map HeapNode.priority) ∧ h'.size = 0 := by
  induction n with
  | zero =>
    intro h _ _ hs
    refine ⟨[], h, rfl, ?_, by simp, by simpa using hs⟩
    have : nodes h = [] := by
      unfold nodes
      rw [hs]
      rfl
    rw [this]
  | succ n ih =>
    intro h wf hp hs
    obtain ⟨h1, hrun, wf1, hp1, hs1, _, hperm⟩ :=
      extractMin_spec h wf hp (by rw [hs]; push_cast; omega)
    obtain ⟨out, h', hrun', hperm', hsorted, hs'⟩ :=
      ih h1 wf1 hp1 (by rw [hs1, hs]; push_cast; omega)
    refine ⟨h.arr 1 :: out, h', ?_, ?_, ?_, hs'⟩
    · simp only [extractAll, hrun, ok_bind, hrun']
      rfl
    · exact (hperm'.cons _).trans hperm.symm
    · simp only [List.map_cons]
      refine List.sorted_cons.2 ⟨?_, hsorted⟩
      intro x hx
      rw [List.mem_map] at hx
      obtain ⟨y, hy, rfl⟩ := hx
      have hy1 : y ∈ nodes h := hperm.symm.subset (List.mem_cons_of_mem _ (hperm'.subset hy))
      obtain ⟨q, hq1, hq2, rfl⟩ := (mem_nodes h y).1 hy1
      exact heapProp_root_le h hp q hq1 hq2

/-! ## The sample runs -/

theorem demo0_reachable : Reachable demo0 := Reachable.init 2 demo0 (by decide) rfl

theorem demo1_reachable : Reachable demo1 :=
  Reachable.insert demo0 10 100 demo1 demo0_reachable rfl

theorem demo2_reachable : Reachable demo2 :=
  Reachable.insert demo1 20 200 demo2 demo1_reachable rfl

theorem demo3_reachable : Reachable demo3 :=
  Reachable.extractMin demo2 (demo2.arr 1) demo3 demo2_reachable (by decide) rfl

theorem demo4_reachable : Reachable demo4 :=
  Reachable.insert demo3 30 300 demo4 demo3_reachable rfl

theorem demo5_reachable : Reachable demo5 :=
  Reachable.insert demo4 40 400 demo5 demo4_reachable rfl

theorem demo6_reachable : Reachable demo6 :=
  Reachable.extractMin demo4 (demo4.arr 1) demo6 demo4_reachable (by decide) rfl

theorem demo2_distinctIds : DistinctIds demo2 := by
  intro p q hp1 hp2 hq1 hq2 hne
  have hsize : demo2.size = 2 := by decide
  rw [hsize] at hp2 hq2
  have hp : p = 1 ∨ p = 2 := by omega
  have hq : q = 1 ∨ q = 2 := by omega
  rcases hp with rfl | rfl <;> rcases hq with rfl | rfl <;> first | (exfalso; omega) | decide

/-! ## Following one node through `bubbleUp` -/

theorem swapState_distinctIds (h : MinHeap) (a b : Int) (ha : 1 ≤ a ∧ a ≤ h.size)
    (hb : 1 ≤ b ∧ b ≤ h.size) (hd : DistinctIds h) : DistinctIds (swapState h a b) := by
  intro p q hp1 hp2 hq1 hq2 hne
  simp only [swapState_size] at hp2 hq2
  rw [swapState_arr, swapState_arr]
  split_ifs <;> first | (exfalso; omega) | (apply hd <;> omega)

theorem siftUp_track (fuel : Nat) : ∀ (h : MinHeap) (i : Int), DistinctIds h → 1 ≤ i →
    i ≤ h.size → h.indexMap (h.arr i).id = i →
    DistinctIds (siftUp fuel h i) ∧ ∃ (q : Int) (k : Nat), q = (fun x : Int => x / 2)^[k] i ∧ 1 ≤ q ∧
      (siftUp fuel h i).arr q = h.arr i ∧ (siftUp fuel h i).indexMap (h.arr i).id = q := by
  induction fuel with
  | zero =>
    intro h i hd h1 _ hm
    exact ⟨hd, i, 0, by simp, h1, rfl, hm⟩
  | succ f ih =>
    intro h i hd h1 hs hm
    rw [siftUp]
    split_ifs with hc
    · have hne : i / 2 ≠ i := by omega
      have harr : (swapState h (i / 2) i).arr (i / 2) = h.arr i := by
        rw [swapState_arr, if_neg hne, if_pos rfl]
      have hids : (h.arr (i / 2)).id ≠ (h.arr i).id :=
        hd (i / 2) i (by omega) (by omega) h1 hs hne
      have hmap : (swapState h (i / 2) i).indexMap ((swapState h (i / 2) i).arr (i / 2)).id
          = i / 2 := by
        rw [harr, swapState_indexMap, if_neg (Ne.symm hids), if_pos rfl]
      obtain ⟨hd', q, k, hq, hq1, hqa, hqm⟩ := ih (swapState h (i / 2) i) (i / 2)
        (swapState_distinctIds h _ _ (by omega) (by omega) hd) (by omega)
        (by simp only [swapState_size]; omega) hmap
      rw [harr] at hqa hqm
      refine ⟨hd', q, k + 1, ?_, hq1, hqa, hqm⟩
      rw [hq, Function.iterate_succ_apply]
    · exact ⟨hd, i, 0, by simp, h1, rfl, hm⟩

theorem range_map_replace {α : Type} (n k0 : Nat) (hk : k0 < n) (f g : Nat → α)
    (hfg : ∀ k, k ≠ k0 → g k = f k) :
    ∃ rest : Multiset α, Multiset.ofList ((List.range n).map f) = f k0 ::ₘ rest ∧
      Multiset.ofList ((List.range n).map g) = g k0 ::ₘ rest := by
  have hperm : (List.range n).Perm (k0 :: (List.range n).erase k0) :=
    List.perm_cons_erase (List.mem_range.2 hk)
  refine ⟨Multiset.ofList (((List.range n).erase k0).map f), ?_, ?_⟩
  · rw [Multiset.cons_coe]
    exact Multiset.coe_eq_coe.2 (hperm.map f)
  · rw [Multiset.cons_coe]
    have e : ((List.range n).erase k0).map f = ((List.range n).erase k0).map g := by
      apply List.map_congr_left
      intro k hk'
      have := ((List.nodup_range n).mem_erase_iff).1 hk'
      exact (hfg k this.1).symm
    rw [e]
    exact Multiset.coe_eq_coe.2 (hperm.map g)

theorem decreaseMid_nodes (h : MinHeap) (index np : Int) (h1 : 1 ≤ index)
    (hs : index ≤ h.size) :
    ∃ rest : Multiset HeapNode, Multiset.ofList (nodes h) = h.arr index ::ₘ rest ∧
      Multiset.ofList (nodes (decreaseMid h index np)) =
        ⟨np, (h.arr index).value, (h.arr index).id⟩ ::ₘ rest := by
  obtain ⟨rest, hr1, hr2⟩ := range_map_replace h.size.toNat (index - 1).toNat (by omega)
    (fun k : Nat => h.arr ((k : Int) + 1))
    (fun k : Nat => (decreaseMid h index np).arr ((k : Int) + 1))
    (fun k hk => by
      simp only [decreaseMid]
      rw [Function.update_noteq (by omega)])
  have e : (((index - 1).toNat : Nat) : Int) + 1 = index := by omega
  simp only [e] at hr1 hr2
  refine ⟨rest, hr1, ?_⟩
  have e2 : (decreaseMid h index np).arr index =
      ⟨np, (h.arr index).value, (h.arr index).id⟩ := by
    simp only [decreaseMid, Function.update_same]
  rw [← e2]
  exact hr2

theorem decreaseMid_distinctIds (h : MinHeap) (index np : Int) (hd : DistinctIds h) :
    DistinctIds (decreaseMid h index np) := by
  intro p q hp1 hp2 hq1 hq2 hne
  have key : ∀ x, ((decreaseMid h index np).arr x).id = (h.arr x).id := by
    intro x
    simp only [decreaseMid]
    by_cases hx : x = index
    · subst hx; rw [Function.update_same]
    · rw [Function.update_noteq hx]
  rw [key, key]
  exact hd p q hp1 hp2 hq1 hq2 hne

/-! ## The claims -/

/-- C1. Heap-property invariant: in every state reachable from `newHeap c`,
`c > 0`, by `insert`, `extractMin` on a non-empty heap and `decreasePriority`
with an identifier inside the index map, every occupied position `p ≥ 2`
holds a priority no smaller than the one at `p / 2`.  Such a state is never a
dead end: each of the three calls returns from it without a fault. -/
theorem heap_property_invariant (h : MinHeap) (hr : Reachable h) :
    (∀ p : Int, 2 ≤ p → p ≤ h.size → (h.arr (p / 2)).priority ≤ (h.arr p).priority) ∧
    (∀ p v, ∃ h', insert h p v = .ok h') ∧
    (0 < h.size → ∃ r h', extractMin h = .ok (r, h')) ∧
    (∀ id np, 0 ≤ id → id ≤ h.capacity → ∃ b h', decreasePriority h id np = .ok (b, h')) := by
  have inv := reachable_inv h hr
  refine ⟨inv.heap, fun p v => ?_, fun hs => ?_, fun id np h0 h1 => ?_⟩
  · obtain ⟨h', hrun, _⟩ := insert_inv h p v inv
    exact ⟨h', hrun⟩
  · obtain ⟨h', hrun, _⟩ := extractMin_inv h inv hs
    exact ⟨_, h', hrun⟩
  · obtain ⟨b, h', hrun, _⟩ := decreasePriority_inv h id np inv h0 h1
    exact ⟨b, h', hrun⟩

/-- Witness for C1: the state after `newHeap(2)`, three `insert`s around an
`extractMin`, the last `insert` growing the heap. -/
theorem heap_property_invariant_witness : Reachable demo5 ∧ HeapProp demo5 :=
  ⟨demo5_reachable, (heap_property_invariant demo5 demo5_reachable).1⟩

/-- C2. Extraction ordering: for every capacity `c > 0` and every list `L` of
(priority, payload) pairs, `newHeap c`, the `insert`s of `L` in order and
`length L` calls of `extractMin` all return, and the priorities of the
extracted nodes, in extraction order, are ascending and a permutation of the
priorities of `L`; for the priorities `[5, 3, 8, 1, 4]` they are
`[1, 3, 4, 5, 8]`. -/
theorem extraction_ordering (c : Int) (hc : 0 < c) (L : List (Int × Nat)) :
    ∃ h0 h out h', newHeap c = .ok h0 ∧ insertAll h0 L = .ok h ∧
      extractAll L.length h = .ok (out, h') ∧
      List.Sorted (· ≤ ·) (out.map HeapNode.priority) ∧
      (out.map HeapNode.priority).Perm (L.map Prod.fst) ∧
      (L.map Prod.fst = [5, 3, 8, 1, 4] → out.map HeapNode.priority = [1, 3, 4, 5, 8]) := by
  obtain ⟨h0, hrun0, inv0, hs0, _⟩ := newHeap_inv c hc
  obtain ⟨h, hrun, inv, hs, hperm⟩ := insertAll_spec L h0 inv0
  obtain ⟨out, h', hrun', hperm', hsorted, _⟩ :=
    extractAll_spec L.length h inv.wf inv.heap (by rw [hs, hs0]; simp)
  have hn0 : nodes h0 = [] := by
    unfold nodes
    rw [hs0]
    rfl
  have hpri : (out.map HeapNode.priority).Perm (L.map Prod.fst) := by
    have h1 := hperm'.map HeapNode.priority
    have h2 := hperm.map Prod.fst
    rw [hn0] at h2
    simp only [List.map_map, List.map_nil, List.append_nil] at h2
    exact h1.trans h2
  refine ⟨h0, h, out, h', hrun0, hrun, hrun', hsorted, hpri, ?_⟩
  intro hL
  rw [hL] at hpri
  have hs2 : List.Sorted (· ≤ ·) ([1, 3, 4, 5, 8] : List Int) := by decide
  have hp2 : ([5, 3, 8, 1, 4] : List Int).Perm [1, 3, 4, 5, 8] := by decide
  exact List.eq_of_perm_of_sorted (hpri.trans hp2) hsorted hs2

/-- Witness for C2: capacity 2, so that the five `insert`s grow the heap
twice. -/
theorem extraction_ordering_witness :
    (0 : Int) < 2 ∧
    ∃ h0 h out h', newHeap 2 = .ok h0 ∧
      insertAll h0 [(5, 50), (3, 30), (8, 80), (1, 10), (4, 40)] = .ok h ∧
      extractAll 5 h = .ok (out, h') ∧
      List.Sorted (· ≤ ·) (out.map HeapNode.priority) ∧
      (out.map HeapNode.priority).Perm [5, 3, 8, 1, 4] ∧
      (([5, 3, 8, 1, 4] : List Int) = [5, 3, 8, 1, 4] →
        out.map HeapNode.priority = [1, 3, 4, 5, 8]) :=
  ⟨by decide, extraction_ordering 2 (by decide) [(5, 50), (3, 30), (8, 80), (1, 10), (4, 40)]⟩

/-- C3. `extractMin` removes and returns the minimum node: on a non-empty,
well-formed heap with the heap property it returns the node stored at the
root; the priority of that node is at most the priority of every occupied
node; and the multiset of (priority, payload) pairs afterwards is the one
before with exactly one occurrence of the returned pair removed. -/
theorem extractMin_returns_minimum (h : MinHeap) (wf : WellFormed h) (hp : HeapProp h)
    (hs : 0 < h.size) :
    ∃ r h', extractMin h = .ok (r, h') ∧ r = h.arr ROOT_INDEX ∧
      (∀ p, 1 ≤ p → p ≤ h.size → r.priority ≤ (h.arr p).priority) ∧
      (r.priority, r.value) ∈ pairs h ∧
      pairs h' = (pairs h).erase (r.priority, r.value) := by
  obtain ⟨h', hrun, _, _, _, _, hperm⟩ := extractMin_spec h wf hp hs
  have hcons : pairs h = ((h.arr 1).priority, (h.arr 1).value) ::ₘ pairs h' := by
    unfold pairs
    have := hperm.map fun x : HeapNode => (x.priority, x.value)
    simp only [List.map_cons] at this
    rw [Multiset.cons_coe]
    exact Multiset.coe_eq_coe.2 this
  refine ⟨h.arr 1, h', hrun, rfl, heapProp_root_le h hp, ?_, ?_⟩
  · rw [hcons]; exact Multiset.mem_cons_self _ _
  · rw [hcons, Multiset.erase_cons_head]

/-- Witness for C3: the full two-node heap of the sample run. -/
theorem extractMin_returns_minimum_witness :
    WellFormed demo2 ∧ HeapProp demo2 ∧ 0 < demo2.size ∧
    ∃ r h', extractMin demo2 = .ok (r, h') ∧ r = demo2.arr ROOT_INDEX ∧
      (∀ p, 1 ≤ p → p ≤ demo2.size → r.priority ≤ (demo2.arr p).priority) ∧
      (r.priority, r.value) ∈ pairs demo2 ∧
      pairs h' = (pairs demo2).erase (r.priority, r.value) :=
  ⟨(reachable_inv demo2 demo2_reachable).wf, (reachable_inv demo2 demo2_reachable).heap,
    by decide,
    extractMin_returns_minimum demo2 (reachable_inv demo2 demo2_reachable).wf
      (reachable_inv demo2 demo2_reachable).heap (by decide)⟩

/-- C4. `getMin` returns the minimum node without removing it: on a
non-empty, well-formed heap with the heap property it returns an occupied
node whose priority is at most the priority of every occupied node, and the
heap state it leaves is the one it was given. -/
theorem getMin_returns_minimum (h : MinHeap) (wf : WellFormed h) (hp : HeapProp h)
    (hs : 0 < h.size) :
    ∃ r, getMin h = .ok (r, h) ∧ r ∈ nodes h ∧
      ∀ p, 1 ≤ p → p ≤ h.size → r.priority ≤ (h.arr p).priority := by
  have hsz := wf.size_le
  have hr := readArr_ok h 1 (by norm_num) (by omega)
  refine ⟨h.arr 1, ?_, (mem_nodes h _).2 ⟨1, le_refl _, by omega, rfl⟩, heapProp_root_le h hp⟩
  unfold getMin
  simp only [ROOT_INDEX, hr, ok_bind]
  rfl

/-- Witness for C4: the three-node heap at the end of the sample run. -/
theorem getMin_returns_minimum_witness :
    WellFormed demo5 ∧ HeapProp demo5 ∧ 0 < demo5.size ∧
    ∃ r, getMin demo5 = .ok (r, demo5) ∧ r ∈ nodes demo5 ∧
      ∀ p, 1 ≤ p → p ≤ demo5.size → r.priority ≤ (demo5.arr p).priority :=
  ⟨(reachable_inv demo5 demo5_reachable).wf, (reachable_inv demo5 demo5_reachable).heap,
    by decide,
    getMin_returns_minimum demo5 (reachable_inv demo5 demo5_reachable).wf
      (reachable_inv demo5 demo5_reachable).heap (by decide)⟩

/-- C5. `insert` preserves content, growth included: from every reachable
state, full or not, `insert p v` returns, and the multiset of (priority,
payload) pairs of the occupied nodes afterwards is the one before plus
exactly one occurrence of `(p, v)`. -/
theorem insert_preserves_content (h : MinHeap) (hr : Reachable h) (p : Int) (v : Nat) :
    ∃ h', insert h p v = .ok h' ∧ pairs h' = (p, v) ::ₘ pairs h := by
  obtain ⟨h', hrun, _, _, hperm⟩ := insert_inv h p v (reachable_inv h hr)
  refine ⟨h', hrun, ?_⟩
  unfold pairs
  have := hperm.map fun x : HeapNode => (x.priority, x.value)
  simp only [List.map_cons] at this
  rw [Multiset.cons_coe]
  exact Multiset.coe_eq_coe.2 this

/-- Witness for C5: a full heap, so that the `insert` doubles the capacity. -/
theorem insert_preserves_content_witness :
    Reachable demo4 ∧ demo4.size = demo4.capacity ∧
    ∃ h', insert demo4 40 400 = .ok h' ∧ pairs h' = (40, 400) ::ₘ pairs demo4 :=
  ⟨demo4_reachable, by decide, insert_preserves_content demo4 demo4_reachable 40 400⟩

/-- C6, evaluated at the failing run `newHeap(2)`, `insert(10, _)`,
`insert(20, _)`, `extractMin()`, `insert(30, _)`: the state is reachable,
position 1 is occupied, and the index map sends the identifier of the node at
position 1 to position 2.  After one more `extractMin()` the node of
priority 30 still carries identifier 2, the index map holds `NOTHING` for 2,
and `decreasePriority(2, 5)` returns false. -/
theorem mapping_inconsistent_at_occupied_position :
    Reachable demo4 ∧ demo4.size = 2 ∧ (demo4.arr 1).id = 2 ∧
      demo4.indexMap (demo4.arr 1).id = 2 ∧
      Reachable demo6 ∧ demo6.size = 1 ∧ demo6.arr 1 = ⟨30, 300, 2⟩ ∧
      demo6.indexMap 2 = NOTHING ∧
      (decreasePriority demo6 2 5).map Prod.fst = .ok false :=
  ⟨demo4_reachable, by decide, by decide, by decide, demo6_reachable, by decide, by decide,
    by decide, rfl⟩

/-- C7, evaluated at the failing run `newHeap(2)`, `insert(10, _)`,
`insert(20, _)`, `extractMin()`, `insert(30, _)`, `insert(40, _)`: the state
is reachable, identifier 1 lies within the capacity and is carried by none of
the three occupied nodes, and the index map holds 0 for it, not `NOTHING`;
`decreasePriority(1, -5)` then returns true. -/
theorem mapping_not_absent_for_absent_identifier :
    Reachable demo5 ∧ demo5.size = 3 ∧ demo5.capacity = 4 ∧
      (demo5.arr 1).id = 2 ∧ (demo5.arr 2).id = 2 ∧ (demo5.arr 3).id = 3 ∧
      demo5.indexMap 1 = 0 ∧ demo5.indexMap 1 ≠ NOTHING ∧
      (decreasePriority demo5 1 (-5)).map Prod.fst = .ok true :=
  ⟨demo5_reachable, by decide, by decide, by decide, by decide, by decide, by decide, by decide,
    rfl⟩

/-- C8, evaluated at the failing run `newHeap(2)`, `insert(10, _)`,
`insert(20, _)`, `extractMin()`, `insert(30, _)`: the state is reachable and
its two occupied nodes, of priorities 20 and 30, both carry identifier 2. -/
theorem identifiers_not_unique :
    Reachable demo4 ∧ demo4.size = 2 ∧
      (demo4.arr 1).priority = 20 ∧ (demo4.arr 2).priority = 30 ∧
      (demo4.arr 1).id = (demo4.arr 2).id :=
  ⟨demo4_reachable, by decide, by decide, by decide, by decide⟩

/-- C9, evaluated at the failing input: in the reachable one-node heap whose
node has identifier 1 and priority 10, `decreasePriority(1, 10)` returns
true, while `decreasePriority(1, 15)` returns false. -/
theorem decreasePriority_accepts_equal_priority :
    Reachable demo1 ∧ demo1.indexMap 1 = 1 ∧ (demo1.arr 1).id = 1 ∧
      (demo1.arr 1).priority = 10 ∧
      (decreasePriority demo1 1 10).map Prod.fst = .ok true ∧
      (decreasePriority demo1 1 15).map Prod.fst = .ok false :=
  ⟨demo1_reachable, by decide, by decide, by decide, rfl, rfl⟩

/-- C10. `decreasePriority` success semantics: on a well-formed heap with the
heap property and pairwise distinct identifiers, where `indexMap[id]` is an
occupied position holding the node that carries `id`, a new priority strictly
below the node's makes `decreasePriority` return true; afterwards the size is
unchanged, the heap property holds, identifiers are still distinct, the node
carrying `id` sits at a position `q` that is the old position or one of its
ancestors (the parent map `x / 2` applied some `k` times), `indexMap[id]` is
`q`, that node has the new priority and its old payload, and the other nodes
are the same multiset as before. -/
theorem decreasePriority_success (h : MinHeap) (id np : Int) (wf : WellFormed h)
    (hp : HeapProp h) (hd : DistinctIds h) (h1 : 1 ≤ h.indexMap id)
    (hs : h.indexMap id ≤ h.size) (hid : (h.arr (h.indexMap id)).id = id)
    (hlt : np < (h.arr (h.indexMap id)).priority) :
    ∃ h', decreasePriority h id np = .ok (true, h') ∧ h'.size = h.size ∧ HeapProp h' ∧
      DistinctIds h' ∧
      (∃ (q : Int) (k : Nat), q = (fun x : Int => x / 2)^[k] (h.indexMap id) ∧ 1 ≤ q ∧
        h'.indexMap id = q ∧
        h'.arr q = ⟨np, (h.arr (h.indexMap id)).value, id⟩) ∧
      ∃ rest : Multiset HeapNode,
        Multiset.ofList (nodes h) = h.arr (h.indexMap id) ::ₘ rest ∧
        Multiset.ofList (nodes h') = ⟨np, (h.arr (h.indexMap id)).value, id⟩ ::ₘ rest := by
  have hsz := wf.size_le
  have hidb := wf.id_inBlock _ h1 hs
  rw [hid] at hidb
  have hrun := decreasePriority_ok h id np wf hidb.1 hidb.2 (fun _ => ⟨by omega, by omega⟩)
  have hn : h.indexMap id ≠ NOTHING := by
    have : NOTHING = -1 := rfl
    omega
  rw [if_neg hn, if_neg (by omega)] at hrun
  have hmidarr : (decreaseMid h (h.indexMap id) np).arr (h.indexMap id) =
      ⟨np, (h.arr (h.indexMap id)).value, id⟩ := by
    simp only [decreaseMid, Function.update_same, hid]
  have hmidmap : (decreaseMid h (h.indexMap id) np).indexMap
      ((decreaseMid h (h.indexMap id) np).arr (h.indexMap id)).id = h.indexMap id := by
    rw [hmidarr]
    rfl
  obtain ⟨hd', q, k, hq, hq1, hqa, hqm⟩ := siftUp_track ((h.indexMap id).toNat + 1)
    (decreaseMid h (h.indexMap id) np) (h.indexMap id)
    (decreaseMid_distinctIds h _ np hd) h1 hs hmidmap
  rw [hmidarr] at hqa hqm
  obtain ⟨rest, hr1, hr2⟩ := decreaseMid_nodes h (h.indexMap id) np h1 hs
  refine ⟨_, hrun, ?_, ?_, hd', ⟨q, k, hq, hq1, hqm, hqa⟩, rest, hr1, ?_⟩
  · rw [siftUp_size]; rfl
  · exact siftUp_heapProp _ _ _ (decreaseMid_upInv h _ np hp (le_of_lt hlt)) h1 hs (by omega)
  · rw [Multiset.coe_eq_coe.2 (siftUp_nodes_perm _ _ _), hr2, hid]

/-- Witness for C10: in the two-node heap of the sample run the node with
identifier 2 sits at position 2 with priority 20; `decreasePriority(2, 5)`
moves it to the root. -/
theorem decreasePriority_success_witness :
    WellFormed demo2 ∧ HeapProp demo2 ∧ DistinctIds demo2 ∧ demo2.indexMap 2 = 2 ∧
    demo2.arr 2 = ⟨20, 200, 2⟩ ∧
    ∃ h', decreasePriority demo2 2 5 = .ok (true, h') ∧ h'.size = demo2.size ∧ HeapProp h' ∧
      DistinctIds h' ∧
      (∃ (q : Int) (k : Nat), q = (fun x : Int => x / 2)^[k] (demo2.indexMap 2) ∧ 1 ≤ q ∧
        h'.indexMap 2 = q ∧ h'.arr q = ⟨5, (demo2.arr (demo2.indexMap 2)).value, 2⟩) ∧
      ∃ rest : Multiset HeapNode,
        Multiset.ofList (nodes demo2) = demo2.arr (demo2.indexMap 2) ::ₘ rest ∧
        Multiset.ofList (nodes h') =
          ⟨5, (demo2.arr (demo2.indexMap 2)).value, 2⟩ ::ₘ rest :=
  ⟨(reachable_inv demo2 demo2_reachable).wf, (reachable_inv demo2 demo2_reachable).heap,
    demo2_distinctIds, by decide, by decide,
    decreasePriority_success demo2 2 5 (reachable_inv demo2 demo2_reachable).wf
      (reachable_inv demo2 demo2_reachable).heap demo2_distinctIds (by decide) (by decide)
      (by decide) (by decide)⟩

/-- C11, evaluated at the failing run `newHeap(2)`, `insert(10, _)`,
`insert(20, _)`, `extractMin()`, `insert(30, _)`, `insert(40, _)`: the state
is reachable, identifier 1 lies within the capacity and is carried by none of
the three occupied nodes, yet `decreasePriority(1, -5)` returns true and
overwrites the priority of slot 0 of the array. -/
theorem decreasePriority_absent_identifier_succeeds :
    Reachable demo5 ∧ demo5.size = 3 ∧ demo5.capacity = 4 ∧
      (demo5.arr 1).id = 2 ∧ (demo5.arr 2).id = 2 ∧ (demo5.arr 3).id = 3 ∧
      decreasePriority demo5 1 (-5) = .ok (true, demo7) ∧
      demo5.arr 0 = ⟨0, 0, 0⟩ ∧ demo7.arr 0 = ⟨-5, 0, 0⟩ :=
  ⟨demo5_reachable, by decide, by decide, by decide, by decide, by decide, rfl, by decide,
    by decide⟩

/-- C12. A failed `decreasePriority` is a no-op: whatever the heap state,
the identifier and the new priority, when `decreasePriority` returns false
the state it leaves is the state it was given. -/
theorem decreasePriority_false_unchanged (h : MinHeap) (id np : Int) (h' : MinHeap)
    (hrun : decreasePriority h id np = .ok (false, h')) : h' = h := by
  unfold decreasePriority at hrun
  cases hr : readMap h id with
  | error e => rw [hr] at hrun; cases hrun
  | ok index =>
    rw [hr, ok_bind] at hrun
    by_cases hn : index = NOTHING
    · rw [if_pos hn] at hrun
      cases hrun
      rfl
    · rw [if_neg hn] at hrun
      cases hp : priorityAt h index with
      | error e => rw [hp] at hrun; cases hrun
      | ok p =>
        rw [hp, ok_bind] at hrun
        by_cases hgt : np > p
        · rw [if_pos hgt] at hrun
          cases hrun
          rfl
        · rw [if_neg hgt] at hrun
          cases hx : readArr h index with
          | error e => rw [hx] at hrun; cases hrun
          | ok x =>
            rw [hx, ok_bind] at hrun
            cases hw : writeArr h index { x with priority := np } with
            | error e => rw [hw] at hrun; cases hrun
            | ok h1 =>
              rw [hw, ok_bind] at hrun
              cases hb : bubbleUp h1 index with
              | error e => rw [hb] at hrun; cases hrun
              | ok h2 =>
                rw [hb, ok_bind] at hrun
                cases hrun

/-- Witness for C12: on the one-node heap of the sample run, whose node has
priority 10, `decreasePriority(1, 15)` returns false. -/
theorem decreasePriority_false_unchanged_witness :
    decreasePriority demo1 1 15 = .ok (false, stateOf2 (decreasePriority demo1 1 15)) ∧
      stateOf2 (decreasePriority demo1 1 15) = demo1 :=
  ⟨rfl, decreasePriority_false_unchanged demo1 1 15 _ rfl⟩

/-- C13. Size accounting: in every reachable state the size lies between 0
and the capacity; `insert` returns a state with one node more, `extractMin`
on a non-empty heap a state with one node fewer, and `decreasePriority` with
an identifier inside the index map a state of the same size. -/
theorem size_accounting (h : MinHeap) (hr : Reachable h) :
    0 ≤ h.size ∧ h.size ≤ h.capacity ∧
    (∀ p v, ∃ h', insert h p v = .ok h' ∧ h'.size = h.size + 1) ∧
    (0 < h.size → ∃ r h', extractMin h = .ok (r, h') ∧ h'.size = h.size - 1) ∧
    (∀ id np, 0 ≤ id → id ≤ h.capacity →
      ∃ b h', decreasePriority h id np = .ok (b, h') ∧ h'.size = h.size) := by
  have inv := reachable_inv h hr
  refine ⟨inv.wf.size_nonneg, inv.wf.size_le, fun p v => ?_, fun hs => ?_,
    fun id np h0 h1 => ?_⟩
  · obtain ⟨h', hrun, _, hs, _⟩ := insert_inv h p v inv
    exact ⟨h', hrun, hs⟩
  · obtain ⟨h', hrun, _, _, hs', _⟩ := extractMin_spec h inv.wf inv.heap hs
    exact ⟨_, h', hrun, hs'⟩
  · have hrun := decreasePriority_run h id np inv h0 h1
    by_cases hn : h.indexMap id = NOTHING
    · rw [if_pos hn] at hrun
      exact ⟨false, h, hrun, rfl⟩
    · rw [if_neg hn] at hrun
      by_cases hgt : np > (h.arr (h.indexMap id)).priority
      · rw [if_pos hgt] at hrun
        exact ⟨false, h, hrun, rfl⟩
      · rw [if_neg hgt] at hrun
        exact ⟨true, _, hrun, by rw [siftUp_size]; rfl⟩

/-- Witness for C13: the full two-node heap of the sample run. -/
theorem size_accounting_witness :
    Reachable demo2 ∧ 0 ≤ demo2.size ∧ demo2.size ≤ demo2.capacity ∧
    (∀ p v, ∃ h', insert demo2 p v = .ok h' ∧ h'.size = demo2.size + 1) ∧
    (0 < demo2.size → ∃ r h', extractMin demo2 = .ok (r, h') ∧ h'.size = demo2.size - 1) ∧
    (∀ id np, 0 ≤ id → id ≤ demo2.capacity →
      ∃ b h', decreasePriority demo2 id np = .ok (b, h') ∧ h'.size = demo2.size) :=
  ⟨demo2_reachable, size_accounting demo2 demo2_reachable⟩

/-- C14. `newHeap c` with `c > 0` returns an empty heap: size 0, capacity
`c`, and `NOTHING` in every slot `0 .. c` of the index map. -/
theorem newHeap_empty (c : Int) (hc : 0 < c) :
    ∃ h, newHeap c = .ok h ∧ h.size = 0 ∧ h.capacity = c ∧
      ∀ i, 0 ≤ i → i ≤ c → h.indexMap i = NOTHING := by
  obtain ⟨h, hrun, hs, hcap, _, hmap⟩ := newHeap_ok c (le_of_lt hc)
  refine ⟨h, hrun, hs, hcap, fun i h0 h1 => ?_⟩
  rw [hmap i, if_pos ⟨h0, h1⟩]

/-- Witness for C14: capacity 2. -/
theorem newHeap_empty_witness :
    (0 : Int) < 2 ∧ ∃ h, newHeap 2 = .ok h ∧ h.size = 0 ∧ h.capacity = 2 ∧
      ∀ i, 0 ≤ i → i ≤ 2 → h.indexMap i = NOTHING :=
  ⟨by decide, newHeap_empty 2 (by decide)⟩

/-- C16. `swap`: when an index lies outside the occupied range `1 .. size`
the state is returned unchanged; on a well-formed heap and two occupied
positions whose nodes carry different identifiers, the two array cells are
exchanged, the index map sends each of the two identifiers to the new
position of its node, and every other array cell, every other entry of the
index map, the size and the capacity are unchanged. -/
theorem swap_effect (h : MinHeap) (a b : Int) :
    (¬ (1 ≤ a ∧ a ≤ h.size ∧ 1 ≤ b ∧ b ≤ h.size) → swap h a b = .ok h) ∧
    (WellFormed h → 1 ≤ a → a ≤ h.size → 1 ≤ b → b ≤ h.size →
      (h.arr a).id ≠ (h.arr b).id →
      ∃ h', swap h a b = .ok h' ∧ h'.arr a = h.arr b ∧ h'.arr b = h.arr a ∧
        h'.indexMap (h.arr b).id = a ∧ h'.indexMap (h.arr a).id = b ∧
        (∀ p, p ≠ a → p ≠ b → h'.arr p = h.arr p) ∧
        (∀ j, j ≠ (h.arr a).id → j ≠ (h.arr b).id → h'.indexMap j = h.indexMap j) ∧
        h'.size = h.size ∧ h'.capacity = h.capacity) := by
  refine ⟨swap_invalid h a b, fun wf ha1 ha2 hb1 hb2 hne => ?_⟩
  have hab : a ≠ b := by
    intro e
    rw [e] at hne
    exact hne rfl
  refine ⟨swapState h a b, swap_valid h wf a b ⟨ha1, ha2⟩ ⟨hb1, hb2⟩, ?_, ?_, ?_, ?_, ?_, ?_,
    rfl, rfl⟩
  · rw [swapState_arr, if_neg hab, if_pos rfl]
  · rw [swapState_arr, if_pos rfl]
  · rw [swapState_indexMap, if_neg (Ne.symm hne), if_pos rfl]
  · rw [swapState_indexMap, if_pos rfl]
  · intro p hpa hpb
    rw [swapState_arr, if_neg hpb, if_neg hpa]
  · intro j hja hjb
    rw [swapState_indexMap, if_neg hja, if_neg hjb]

/-- Witness for C16: positions 1 and 2 of the two-node heap of the sample
run, for the exchange; positions 1 and 3 for the call without effect. -/
theorem swap_effect_witness :
    swap demo2 1 3 = .ok demo2 ∧
    ∃ h', swap demo2 1 2 = .ok h' ∧ h'.arr 1 = demo2.arr 2 ∧ h'.arr 2 = demo2.arr 1 ∧
      h'.indexMap (demo2.arr 2).id = 1 ∧ h'.indexMap (demo2.arr 1).id = 2 ∧
      (∀ p, p ≠ 1 → p ≠ 2 → h'.arr p = demo2.arr p) ∧
      (∀ j, j ≠ (demo2.arr 1).id → j ≠ (demo2.arr 2).id →
        h'.indexMap j = demo2.indexMap j) ∧
      h'.size = demo2.size ∧ h'.capacity = demo2.capacity :=
  ⟨(swap_effect demo2 1 3).1 (by decide),
    (swap_effect demo2 1 2).2 (reachable_inv demo2 demo2_reachable).wf (by decide) (by decide)
      (by decide) (by decide) (by decide)⟩

theorem tieHeap_wellFormed : WellFormed tieHeap := by
  refine ⟨by decide, by decide, ?_⟩
  intro p hp1 hp2
  have hp : p = 1 ∨ p = 2 ∨ p = 3 := by
    have : tieHeap.size = 3 := rfl
    omega
  rcases hp with rfl | rfl | rfl <;> decide

theorem minChild_lt (h : MinHeap) (r : Int) (hm : minChild h r ≠ r) :
    (h.arr (minChild h r)).priority < (h.arr r).priority := by
  unfold minChild at hm ⊢
  simp only at hm ⊢
  by_cases c1 : 2 * r ≤ h.size ∧ (h.arr (2 * r)).priority < (h.arr r).priority
  · rw [if_pos c1] at hm ⊢
    by_cases c2 : 2 * r + 1 ≤ h.size ∧ (h.arr (2 * r + 1)).priority < (h.arr (2 * r)).priority
    · rw [if_pos c2]
      omega
    · rw [if_neg c2]
      exact c1.2
  · rw [if_neg c1] at hm ⊢
    by_cases c2 : 2 * r + 1 ≤ h.size ∧ (h.arr (2 * r + 1)).priority < (h.arr r).priority
    · rw [if_pos c2]
      exact c2.2
    · rw [if_neg c2] at hm
      exact absurd rfl hm

theorem minChild_eq_self (h : MinHeap) (r : Int)
    (hge : ∀ c, (c = 2 * r ∨ c = 2 * r + 1) → c ≤ h.size →
      (h.arr r).priority ≤ (h.arr c).priority) : minChild h r = r := by
  unfold minChild
  simp only
  have c1 : ¬ (2 * r ≤ h.size ∧ (h.arr (2 * r)).priority < (h.arr r).priority) := by
    intro hc
    have := hge (2 * r) (Or.inl rfl) hc.1
    omega
  rw [if_neg c1]
  have c2 : ¬ (2 * r + 1 ≤ h.size ∧ (h.arr (2 * r + 1)).priority < (h.arr r).priority) := by
    intro hc
    have := hge (2 * r + 1) (Or.inr rfl) hc.1
    omega
  rw [if_neg c2]

theorem minChild_tie (h : MinHeap) (r : Int) (hs : 2 * r + 1 ≤ h.size)
    (heq : (h.arr (2 * r)).priority = (h.arr (2 * r + 1)).priority)
    (hlt : (h.arr (2 * r)).priority < (h.arr r).priority) : minChild h r = 2 * r := by
  unfold minChild
  simp only
  have c1 : 2 * r ≤ h.size ∧ (h.arr (2 * r)).priority < (h.arr r).priority := ⟨by omega, hlt⟩
  rw [if_pos c1]
  have c2 : ¬ (2 * r + 1 ≤ h.size ∧
      (h.arr (2 * r + 1)).priority < (h.arr (2 * r)).priority) := by
    intro hc
    omega
  rw [if_neg c2]

/-- C17. Sift-down tie-breaking, for one iteration of the loop of
`bubbleDown` at an occupied position `r` of a well-formed heap: the iteration
either returns the state unchanged or exchanges `r` with a child whose
priority is strictly smaller and goes on from that child; when no existing
child is strictly smaller it returns the state unchanged, and so does
`bubbleDown` when the root is at most both its children; when both children
exist with equal priorities strictly below that of `r`, the exchange is with
the left child `2 * r`. -/
theorem bubbleDown_tie_breaking (h : MinHeap) (wf : WellFormed h) (r : Int) (hr1 : 1 ≤ r)
    (hr2 : r ≤ h.size) (f : Nat) :
    (bubbleDownLoop (f + 1) h r = .ok h ∨
      ∃ c, (c = 2 * r ∨ c = 2 * r + 1) ∧ c ≤ h.size ∧
        (h.arr c).priority < (h.arr r).priority ∧
        bubbleDownLoop (f + 1) h r = (swap h r c).bind fun h1 => bubbleDownLoop f h1 c) ∧
    ((∀ c, (c = 2 * r ∨ c = 2 * r + 1) → c ≤ h.size →
        (h.arr r).priority ≤ (h.arr c).priority) →
      bubbleDownLoop (f + 1) h r = .ok h) ∧
    (2 * r + 1 ≤ h.size → (h.arr (2 * r)).priority = (h.arr (2 * r + 1)).priority →
      (h.arr (2 * r)).priority < (h.arr r).priority →
      bubbleDownLoop (f + 1) h r =
        (swap h r (2 * r)).bind fun h1 => bubbleDownLoop f h1 (2 * r)) ∧
    ((∀ c, (c = 2 ∨ c = 3) → c ≤ h.size → (h.arr 1).priority ≤ (h.arr c).priority) →
      bubbleDown h = .ok h) := by
  have hstep := bubbleDownLoop_step f h r wf hr1 hr2
  refine ⟨?_, ?_, ?_, ?_⟩
  · by_cases hm : minChild h r = r
    · left
      rw [hstep, if_neg (not_not.2 hm)]
    · right
      refine ⟨minChild h r, ?_, ?_, minChild_lt h r hm, ?_⟩
      · rcases minChild_cases h r with h1 | h1 | h1
        · exact absurd h1 hm
        · exact Or.inl h1.1
        · exact Or.inr h1.1
      · exact (minChild_valid h r hr1 hm).2.1
      · rw [hstep, if_pos hm]
  · intro hge
    rw [hstep, if_neg (not_not.2 (minChild_eq_self h r hge))]
  · intro hs heq hlt
    have hm := minChild_tie h r hs heq hlt
    rw [hstep, hm, if_pos (by omega)]
  · intro hge
    unfold bubbleDown
    by_cases h1 : h.size ≤ 1
    · rw [if_pos h1]
      rfl
    · rw [if_neg h1]
      have hm : minChild h 1 = 1 := minChild_eq_self h 1 (by
        intro c hc
        exact hge c (by omega))
      rw [ROOT_INDEX, bubbleDownLoop_step _ h 1 wf (le_refl _) (by omega),
        if_neg (not_not.2 hm)]

/-- Witness for C17: the root of `tieHeap` has priority 5 and both children
priority 3; the first iteration exchanges the root with position 2. -/
theorem bubbleDown_tie_breaking_witness :
    WellFormed tieHeap ∧ (tieHeap.arr 1).priority = 5 ∧ (tieHeap.arr 2).priority = 3 ∧
    (tieHeap.arr 3).priority = 3 ∧
    bubbleDownLoop (3 + 1) tieHeap 1 =
      (swap tieHeap 1 (2 * 1)).bind fun h1 => bubbleDownLoop 3 h1 (2 * 1) :=
  ⟨tieHeap_wellFormed, by decide, by decide, by decide,
    (bubbleDown_tie_breaking tieHeap tieHeap_wellFormed 1 (by decide) (by decide) 3).2.2.1
      (by decide) (by decide) (by decide)⟩

/-! ## Identifiers stay positive -/

theorem decreaseMid_id (h : MinHeap) (index np p : Int) :
    ((decreaseMid h index np).arr p).id = (h.arr p).id := by
  simp only [decreaseMid]
  by_cases hp : p = index
  · subst hp; rw [Function.update_same]
  · rw [Function.update_noteq hp]

theorem reachable_id_pos (h : MinHeap) (hr : Reachable h) : ∀ x ∈ nodes h, 1 ≤ x.id := by
  induction hr with
  | init c h hc hrun =>
    obtain ⟨h0, hrun0, _, hs0, _⟩ := newHeap_inv c hc
    rw [hrun] at hrun0
    injection hrun0 with e
    intro x hx
    obtain ⟨p, hp1, hp2, _⟩ := (mem_nodes h x).1 hx
    rw [e, hs0] at hp2
    omega
  | insert h p v h' hprev hrun ih =>
    have inv := reachable_inv h hprev
    obtain ⟨h0, hrun0, _, _, hperm⟩ := insert_inv h p v inv
    rw [hrun] at hrun0
    injection hrun0 with e
    intro x hx
    rw [e] at hx
    rcases List.mem_cons.1 (hperm.subset hx) with rfl | hx'
    · have := inv.wf.size_nonneg
      show 1 ≤ h.size + 1
      omega
    · exact ih x hx'
  | extractMin h r h' hprev hs hrun ih =>
    have inv := reachable_inv h hprev
    obtain ⟨h0, hrun0, _, _, _, _, hperm⟩ := extractMin_spec h inv.wf inv.heap hs
    rw [hrun] at hrun0
    injection hrun0 with e
    injection e with _ e
    intro x hx
    rw [e] at hx
    exact ih x (hperm.symm.subset (List.mem_cons_of_mem _ hx))
  | decreasePriority h id np b h' hprev h0 h1 hrun ih =>
    have inv := reachable_inv h hprev
    have hrun0 := decreasePriority_run h id np inv h0 h1
    rw [hrun] at hrun0
    injection hrun0 with e
    intro x hx
    by_cases hn : h.indexMap id = NOTHING
    · rw [if_pos hn] at e
      injection e with _ e
      rw [e] at hx
      exact ih x hx
    · rw [if_neg hn] at e
      by_cases hgt : np > (h.arr (h.indexMap id)).priority
      · rw [if_pos hgt] at e
        injection e with _ e
        rw [e] at hx
        exact ih x hx
      · rw [if_neg hgt] at e
        injection e with _ e
        rw [e] at hx
        have hx' := (siftUp_nodes_perm _ _ _).subset hx
        obtain ⟨q, hq1, hq2, rfl⟩ := (mem_nodes _ x).1 hx'
        rw [decreaseMid_id]
        exact ih _ ((mem_nodes h _).2 ⟨q, hq1, hq2, rfl⟩)

/-- C20. Identifier bounds: in every reachable state each occupied node
carries an identifier between 1 and the capacity, and no access leaves the
blocks: `swap` on any two indices, `doubleCapacity`, `insert` and, on a
non-empty heap, `extractMin` all return without a fault. -/
theorem identifier_bounds (h : MinHeap) (hr : Reachable h) :
    (∀ p, 1 ≤ p → p ≤ h.size → 1 ≤ (h.arr p).id ∧ (h.arr p).id ≤ h.capacity) ∧
    (∀ a b, ∃ h', swap h a b = .ok h') ∧
    (∃ h', doubleCapacity h = .ok h') ∧
    (∀ p v, ∃ h', insert h p v = .ok h') ∧
    (0 < h.size → ∃ r h', extractMin h = .ok (r, h')) := by
  have inv := reachable_inv h hr
  refine ⟨fun p hp1 hp2 => ?_, fun a b => ?_, ?_, fun p v => ?_, fun hs => ?_⟩
  · exact ⟨reachable_id_pos h hr _ ((mem_nodes h _).2 ⟨p, hp1, hp2, rfl⟩),
      (inv.wf.id_inBlock p hp1 hp2).2⟩
  · by_cases hv : 1 ≤ a ∧ a ≤ h.size ∧ 1 ≤ b ∧ b ≤ h.size
    · exact ⟨_, swap_valid h inv.wf a b ⟨hv.1, hv.2.1⟩ ⟨hv.2.2.1, hv.2.2.2⟩⟩
    · exact ⟨h, swap_invalid h a b hv⟩
  · obtain ⟨h', hrun, _⟩ := doubleCapacity_ok h inv.wf
    exact ⟨h', hrun⟩
  · obtain ⟨h', hrun, _⟩ := insert_inv h p v inv
    exact ⟨h', hrun⟩
  · obtain ⟨h', hrun, _⟩ := extractMin_inv h inv hs
    exact ⟨_, h', hrun⟩

/-- Witness for C20: the three-node heap at the end of the sample run. -/
theorem identifier_bounds_witness :
    Reachable demo5 ∧
    ∀ p, 1 ≤ p → p ≤ demo5.size → 1 ≤ (demo5.arr p).id ∧ (demo5.arr p).id ≤ demo5.capacity :=
  ⟨demo5_reachable, (identifier_bounds demo5 demo5_reachable).1⟩

/-! ## `doubleCapacity` on distinct identifiers -/

theorem copyLoop_written (h : MinHeap) (oldCap : Int) (n : Nat) :
    ∀ (i : Int) (st : (Int → HeapNode) × (Int → Int)) (na : Int → HeapNode) (nm : Int → Int),
    0 ≤ i → i + n ≤ oldCap + 1 → i + n ≤ h.capacity + 1 →
    (∀ p, i ≤ p → p < i + n → 0 ≤ (h.arr p).id ∧ (h.arr p).id ≤ h.capacity) →
    copyLoop h oldCap n i st = .ok (na, nm) →
    ∀ p, i ≤ p → p < i + n →
      i ≤ nm (h.arr p).id ∧ nm (h.arr p).id < i + n ∧ (h.arr (nm (h.arr p).id)).id = (h.arr p).id := by
  induction n with
  | zero =>
    intro i st na nm _ _ _ _ _ p hp1 hp2
    exfalso
    have : ((0 : Nat) : Int) = 0 := rfl
    omega
  | succ n ih =>
    intro i st na nm h0 h1 h2 hid hrun p hp1 hp2
    obtain ⟨a0, m0⟩ := st
    have b1 : inBlock oldCap i = true := (inBlock_iff _ _).2 ⟨h0, by omega⟩
    have b2 : inBlock h.capacity i = true := (inBlock_iff _ _).2 ⟨h0, by omega⟩
    have b3 : inBlock h.capacity (h.arr i).id = true :=
      (inBlock_iff _ _).2 (hid i (le_refl _) (by omega))
    have hrun' : copyLoop h oldCap n (i + 1)
        (Function.update a0 i (h.arr i), Function.update m0 (h.arr i).id i) = .ok (na, nm) := by
      simpa [copyLoop, b1, b2, b3] using hrun
    have g1 : i + 1 + (n : Int) ≤ oldCap + 1 := by push_cast at h1; omega
    have g2 : i + 1 + (n : Int) ≤ h.capacity + 1 := by push_cast at h2; omega
    have g3 : ∀ q, i + 1 ≤ q → q < i + 1 + (n : Int) →
        0 ≤ (h.arr q).id ∧ (h.arr q).id ≤ h.capacity :=
      fun q hq1 hq2 => hid q (by omega) (by push_cast; omega)
    by_cases hpi : p = i
    · subst hpi
      obtain ⟨na', nm', hrun'', _, hmap⟩ := copyLoop_ok h oldCap n (p + 1)
        (Function.update a0 p (h.arr p), Function.update m0 (h.arr p).id p) (by omega) g1 g2 g3
      rw [hrun'] at hrun''
      injection hrun'' with e
      injection e with _ e
      subst e
      simp only at hmap
      rcases hmap (h.arr p).id with hj | ⟨hj1, hj2, hj3⟩
      · rw [Function.update_same] at hj
        rw [hj]
        exact ⟨le_refl _, by push_cast; omega, rfl⟩
      · exact ⟨by omega, by push_cast; omega, hj3⟩
    · have := ih (i + 1) _ na nm (by omega) g1 g2 g3 hrun' p (by omega) (by push_cast at hp2; omega)
      exact ⟨by omega, by push_cast; omega, this.2.2⟩

theorem doubleCapacity_exact (h : MinHeap) (wf : WellFormed h) (hd : DistinctIds h)
    (hids : ∀ p, 1 ≤ p → p ≤ h.size → (h.arr p).id ≤ h.size) :
    ∃ h', doubleCapacity h = .ok h' ∧ h'.size = h.size ∧ h'.capacity = h.capacity * 2 ∧
      (∀ p, h'.arr p = if 1 ≤ p ∧ p ≤ h.size then h.arr p else zeroNode) ∧
      (∀ p, 1 ≤ p → p ≤ h.size → h'.indexMap (h.arr p).id = p) ∧
      (∀ j, h.size < j → j ≤ h.capacity * 2 → h'.indexMap j = NOTHING) := by
  have hs0 := wf.size_nonneg
  have hsz := wf.size_le
  have hidb : ∀ p, 1 ≤ p → p < 1 + ((h.size.toNat : Nat) : Int) →
      0 ≤ (h.arr p).id ∧ (h.arr p).id ≤ h.capacity * 2 := by
    intro p hp1 hp2
    have := wf.id_inBlock p hp1 (by omega)
    omega
  obtain ⟨na, nm, hrun, harr, _⟩ :=
    copyLoop_ok { h with capacity := h.capacity * 2 } h.capacity h.size.toNat 1
      (fun _ => zeroNode, fun _ => 0) (by norm_num) (by omega) (by simp only; omega) hidb
  have hwritten := copyLoop_written { h with capacity := h.capacity * 2 } h.capacity
    h.size.toNat 1 (fun _ => zeroNode, fun _ => 0) na nm (by norm_num) (by omega)
    (by simp only; omega) hidb hrun
  obtain ⟨m', hm', hval⟩ := fillNothing_ok (h.capacity * 2) (h.capacity * 2 - h.size).toNat
    (h.size + 1) nm (by omega) (by omega)
  refine ⟨{ size := h.size, capacity := h.capacity * 2, arr := na, indexMap := m' }, ?_, rfl, rfl,
    fun p => ?_, fun p hp1 hp2 => ?_, fun j hj1 hj2 => ?_⟩
  · simp [doubleCapacity, hrun, hm', bind, Except.bind, pure, Except.pure]
  · show na p = _
    rw [harr p]
    by_cases c : 1 ≤ p ∧ p ≤ h.size
    · have c2 : 1 ≤ p ∧ p < 1 + ((h.size.toNat : Nat) : Int) := by omega
      rw [if_pos c, if_pos c2]
    · have c2 : ¬ (1 ≤ p ∧ p < 1 + ((h.size.toNat : Nat) : Int)) := by omega
      rw [if_neg c, if_neg c2]
  · show m' (h.arr p).id = p
    rw [hval]
    have hle := hids p hp1 hp2
    have c : ¬ (h.size + 1 ≤ (h.arr p).id ∧
        (h.arr p).id < h.size + 1 + (((h.capacity * 2 - h.size).toNat : Nat) : Int)) := by
      omega
    rw [if_neg c]
    obtain ⟨w1, w2, w3⟩ := hwritten p hp1 (by omega)
    simp only at w1 w2 w3
    by_contra hne
    exact hd _ _ w1 (by omega) hp1 hp2 hne w3
  · show m' j = NOTHING
    rw [hval j]
    have c : h.size + 1 ≤ j ∧ j < h.size + 1 + (((h.capacity * 2 - h.size).toNat : Nat) : Int) := by
      omega
    rw [if_pos c]

/-- C15. Growth: on a heap with positive capacity that is full and whose
occupied nodes carry pairwise distinct identifiers between 1 and the
capacity, `doubleCapacity` returns a heap of twice the capacity and the same
size, with the same node at every occupied position, whose index map sends
the identifier of every occupied node to the position of that node and holds
`NOTHING` in every slot from the old size plus one to the new capacity. -/
theorem doubleCapacity_growth (h : MinHeap) (hc : 0 < h.capacity) (hfull : h.size = h.capacity)
    (hd : DistinctIds h)
    (hids : ∀ p, 1 ≤ p → p ≤ h.size → 1 ≤ (h.arr p).id ∧ (h.arr p).id ≤ h.capacity) :
    ∃ h', doubleCapacity h = .ok h' ∧ h'.capacity = 2 * h.capacity ∧ h'.size = h.size ∧
      (∀ p, 1 ≤ p → p ≤ h.size → h'.arr p = h.arr p) ∧
      (∀ p, 1 ≤ p → p ≤ h.size → h'.indexMap (h'.arr p).id = p) ∧
      (∀ j, h.size + 1 ≤ j → j ≤ h'.capacity → h'.indexMap j = NOTHING) := by
  have wf : WellFormed h := ⟨by omega, by omega, fun p hp1 hp2 => by
    have := hids p hp1 hp2
    omega⟩
  obtain ⟨h', hrun, hs, hcap, harr, hmap, hnot⟩ := doubleCapacity_exact h wf hd
    (fun p hp1 hp2 => by
      have := hids p hp1 hp2
      omega)
  have harr' : ∀ p, 1 ≤ p → p ≤ h.size → h'.arr p = h.arr p := by
    intro p hp1 hp2
    rw [harr p, if_pos ⟨hp1, hp2⟩]
  refine ⟨h', hrun, by rw [hcap]; ring, hs, harr', fun p hp1 hp2 => ?_, fun j hj1 hj2 => ?_⟩
  · rw [harr' p hp1 hp2]
    exact hmap p hp1 hp2
  · exact hnot j (by omega) (by rw [hcap] at hj2; exact hj2)

/-- Witness for C15: the full two-node heap of the sample run, with
identifiers 1 and 2. -/
theorem doubleCapacity_growth_witness :
    0 < demo2.capacity ∧ demo2.size = demo2.capacity ∧ DistinctIds demo2 ∧
    ∃ h', doubleCapacity demo2 = .ok h' ∧ h'.capacity = 2 * demo2.capacity ∧
      h'.size = demo2.size ∧
      (∀ p, 1 ≤ p → p ≤ demo2.size → h'.arr p = demo2.arr p) ∧
      (∀ p, 1 ≤ p → p ≤ demo2.size → h'.indexMap (h'.arr p).id = p) ∧
      (∀ j, demo2.size + 1 ≤ j → j ≤ h'.capacity → h'.indexMap j = NOTHING) :=
  ⟨by decide, by decide, demo2_distinctIds,
    doubleCapacity_growth demo2 (by decide) (by decide) demo2_distinctIds
      (fun p hp1 hp2 => by
        have hsize : demo2.size = 2 := by decide
        rw [hsize] at hp2
        have hp : p = 1 ∨ p = 2 := by omega
        rcases hp with rfl | rfl <;> decide)⟩

/-! ## The step budgets are never exhausted -/

theorem error_bind {α β : Type} (e : Fault) (f : α → Except Fault β) :
    ((Except.error e : Except Fault α) >>= f) = Except.error e := rfl

theorem bind_noFuel {α β : Type} (x : Except Fault α) (f : α → Except Fault β)
    (hx : x ≠ .error .outOfFuel) (hf : ∀ a, x = .ok a → f a ≠ .error .outOfFuel) :
    (x >>= f) ≠ .error .outOfFuel := by
  cases x with
  | error e =>
    rw [error_bind]
    intro hc
    cases hc
    exact hx rfl
  | ok a => exact hf a rfl

theorem ok_noFuel {α : Type} (a : α) : (Except.ok a : Except Fault α) ≠ .error .outOfFuel := by
  intro hc
  cases hc

theorem pure_noFuel {α : Type} (a : α) : (pure a : Except Fault α) ≠ .error .outOfFuel := by
  intro hc
  cases hc

theorem readArr_noFuel (h : MinHeap) (i : Int) : readArr h i ≠ .error .outOfFuel := by
  unfold readArr
  split_ifs <;> intro hc <;> cases hc

theorem writeArr_noFuel (h : MinHeap) (i : Int) (x : HeapNode) :
    writeArr h i x ≠ .error .outOfFuel := by
  unfold writeArr
  split_ifs <;> intro hc <;> cases hc

theorem readMap_noFuel (h : MinHeap) (i : Int) : readMap h i ≠ .error .outOfFuel := by
  unfold readMap
  split_ifs <;> intro hc <;> cases hc

theorem writeMap_noFuel (h : MinHeap) (i x : Int) : writeMap h i x ≠ .error .outOfFuel := by
  unfold writeMap
  split_ifs <;> intro hc <;> cases hc

theorem priorityAt_noFuel (h : MinHeap) (i : Int) : priorityAt h i ≠ .error .outOfFuel := by
  unfold priorityAt readArr
  split_ifs <;> intro hc <;> cases hc

theorem writeArr_size (h h1 : MinHeap) (i : Int) (x : HeapNode) (hw : writeArr h i x = .ok h1) :
    h1.size = h.size := by
  unfold writeArr at hw
  split_ifs at hw
  cases hw
  rfl

theorem writeMap_size (h h1 : MinHeap) (i x : Int) (hw : writeMap h i x = .ok h1) :
    h1.size = h.size := by
  unfold writeMap at hw
  split_ifs at hw
  cases hw
  rfl

theorem swap_noFuel (h : MinHeap) (a b : Int) : swap h a b ≠ .error .outOfFuel := by
  unfold swap
  split_ifs
  · refine bind_noFuel _ _ (readArr_noFuel _ _) fun _ _ => ?_
    refine bind_noFuel _ _ (readArr_noFuel _ _) fun _ _ => ?_
    refine bind_noFuel _ _ (writeArr_noFuel _ _ _) fun _ _ => ?_
    refine bind_noFuel _ _ (writeArr_noFuel _ _ _) fun _ _ => ?_
    refine bind_noFuel _ _ (readArr_noFuel _ _) fun _ _ => ?_
    refine bind_noFuel _ _ (writeMap_noFuel _ _ _) fun _ _ => ?_
    refine bind_noFuel _ _ (readArr_noFuel _ _) fun _ _ => ?_
    exact writeMap_noFuel _ _ _
  · exact pure_noFuel _

theorem swap_size (h h1 : MinHeap) (a b : Int) (hs : swap h a b = .ok h1) :
    h1.size = h.size := by
  unfold swap at hs
  split_ifs at hs
  · cases e1 : readArr h a with
    | error e => rw [e1] at hs; cases hs
    | ok t =>
      rw [e1, ok_bind] at hs
      cases e2 : readArr h b with
      | error e => rw [e2] at hs; cases hs
      | ok x2 =>
        rw [e2, ok_bind] at hs
        cases e3 : writeArr h a x2 with
        | error e => rw [e3] at hs; cases hs
        | ok g1 =>
          rw [e3, ok_bind] at hs
          cases e4 : writeArr g1 b t with
          | error e => rw [e4] at hs; cases hs
          | ok g2 =>
            rw [e4, ok_bind] at hs
            cases e5 : readArr g2 a with
            | error e => rw [e5] at hs; cases hs
            | ok y1 =>
              rw [e5, ok_bind] at hs
              cases e6 : writeMap g2 y1.id a with
              | error e => rw [e6] at hs; cases hs
              | ok g3 =>
                rw [e6, ok_bind] at hs
                cases e7 : readArr g3 b with
                | error e => rw [e7] at hs; cases hs
                | ok y2 =>
                  rw [e7, ok_bind] at hs
                  rw [writeMap_size _ _ _ _ hs, writeMap_size _ _ _ _ e6,
                    writeArr_size _ _ _ _ e4, writeArr_size _ _ _ _ e3]
  · cases hs
    rfl

theorem bubbleUpAux_noFuel (fuel : Nat) : ∀ (h : MinHeap) (i : Int), i.toNat < fuel →
    bubbleUpAux fuel h i ≠ .error .outOfFuel := by
  induction fuel with
  | zero => intro h i hf; omega
  | succ f ih =>
    intro h i hf
    unfold bubbleUpAux
    simp only
    by_cases v1 : isValidIndex h i = true
    · rw [if_pos v1]
      have hv := (isValidIndex_iff h i).1 v1
      have hpar : parentIdx h i = i / 2 := by
        unfold parentIdx
        rw [if_pos v1]
      rw [hpar]
      by_cases v2 : isValidIndex h (i / 2) = true
      · rw [if_pos v2]
        have hv2 := (isValidIndex_iff h (i / 2)).1 v2
        refine bind_noFuel _ _ (priorityAt_noFuel _ _) fun pp _ => ?_
        refine bind_noFuel _ _ (priorityAt_noFuel _ _) fun pn _ => ?_
        split_ifs
        · refine bind_noFuel _ _ (swap_noFuel _ _ _) fun h1 _ => ?_
          exact ih h1 (i / 2) (by omega)
        · exact pure_noFuel _
      · rw [if_neg v2]
        exact pure_noFuel _
    · rw [if_neg v1]
      exact pure_noFuel _

theorem bubbleDownLoop_noFuel (fuel : Nat) : ∀ (h : MinHeap) (r : Int),
    (h.size - r).toNat < fuel → bubbleDownLoop fuel h r ≠ .error .outOfFuel := by
  induction fuel with
  | zero => intro h r hf; omega
  | succ f ih =>
    intro h r hf
    unfold bubbleDownLoop
    simp only
    by_cases v1 : isValidIndex h r = true
    · rw [if_pos v1]
      have hv := (isValidIndex_iff h r).1 v1
      have hleft : isValidIndex h (leftIdx h r) = true →
          r < leftIdx h r ∧ leftIdx h r ≤ h.size := by
        intro vl
        have hvl := (isValidIndex_iff h _).1 vl
        unfold leftIdx at hvl ⊢
        split_ifs at hvl ⊢ with c
        · omega
        · simp only [NOTHING] at hvl
          omega
      have hright : isValidIndex h (rightIdx h r) = true →
          r < rightIdx h r ∧ rightIdx h r ≤ h.size := by
        intro vr
        have hvr := (isValidIndex_iff h _).1 vr
        unfold rightIdx at hvr ⊢
        split_ifs at hvr ⊢ with c
        · omega
        · simp only [NOTHING] at hvr
          omega
      -- the last statement of the iteration
      have hfin : ∀ y : Int, (y = r ∨ (r < y ∧ y ≤ h.size)) →
          (if y ≠ r then swap h r y >>= fun h1 => bubbleDownLoop f h1 y else pure h)
            ≠ .error .outOfFuel := by
        intro y hy
        by_cases hne : y ≠ r
        · rw [if_pos hne]
          refine bind_noFuel _ _ (swap_noFuel _ _ _) fun h1 hs => ?_
          have hsize := swap_size _ _ _ _ hs
          apply ih
          rw [hsize]
          rcases hy with e | e
          · exact absurd e hne
          · omega
        · rw [if_neg hne]
          exact pure_noFuel _
      -- the comparison with the right child and what follows it
      have hsecond : ∀ y : Int, (y = r ∨ (r < y ∧ y ≤ h.size)) →
          (if isValidIndex h (rightIdx h r) = true then
              priorityAt h (rightIdx h r) >>= fun pr => priorityAt h y >>= fun pm =>
                pure (if pr < pm then rightIdx h r else y) >>= fun y' =>
                  if y' ≠ r then swap h r y' >>= fun h1 => bubbleDownLoop f h1 y' else pure h
            else pure y >>= fun y' =>
              if y' ≠ r then swap h r y' >>= fun h1 => bubbleDownLoop f h1 y' else pure h)
            ≠ .error .outOfFuel := by
        intro y hy
        by_cases vr : isValidIndex h (rightIdx h r) = true
        · rw [if_pos vr]
          refine bind_noFuel _ _ (priorityAt_noFuel _ _) fun pr _ => ?_
          refine bind_noFuel _ _ (priorityAt_noFuel _ _) fun pm _ => ?_
          refine bind_noFuel _ _ (pure_noFuel _) fun y' hy' => ?_
          cases hy'
          apply hfin
          split_ifs
          · exact Or.inr (hright vr)
          · exact hy
        · rw [if_neg vr]
          refine bind_noFuel _ _ (pure_noFuel _) fun y' hy' => ?_
          cases hy'
          exact hfin _ hy
      by_cases vl : isValidIndex h (leftIdx h r) = true
      · rw [if_pos vl]
        refine bind_noFuel _ _ (priorityAt_noFuel _ _) fun pl _ => ?_
        refine bind_noFuel _ _ (priorityAt_noFuel _ _) fun pm _ => ?_
        refine bind_noFuel _ _ (pure_noFuel _) fun y hy => ?_
        cases hy
        apply hsecond
        split_ifs
        · exact Or.inr (hleft vl)
        · exact Or.inl rfl
      · rw [if_neg vl]
        refine bind_noFuel _ _ (pure_noFuel _) fun y hy => ?_
        cases hy
        exact hsecond _ (Or.inl rfl)
    · rw [if_neg v1]
      exact pure_noFuel _

theorem bubbleDown_noFuel (h : MinHeap) : bubbleDown h ≠ .error .outOfFuel := by
  unfold bubbleDown
  split_ifs
  · exact pure_noFuel _
  · exact bubbleDownLoop_noFuel _ h ROOT_INDEX (by simp only [ROOT_INDEX]; omega)

theorem copyLoop_noFuel (h : MinHeap) (oldCap : Int) (n : Nat) :
    ∀ (i : Int) (st : (Int → HeapNode) × (Int → Int)),
      copyLoop h oldCap n i st ≠ .error .outOfFuel := by
  induction n with
  | zero => intro i st; exact ok_noFuel _
  | succ n ih =>
    intro i st
    obtain ⟨a0, m0⟩ := st
    unfold copyLoop
    split_ifs
    · exact ih _ _
    · intro hc
      cases hc

theorem fillNothing_noFuel (cap : Int) (n : Nat) :
    ∀ (i : Int) (m : Int → Int), fillNothing cap n i m ≠ .error .outOfFuel := by
  induction n with
  | zero => intro i m; exact ok_noFuel _
  | succ n ih =>
    intro i m
    unfold fillNothing
    split_ifs
    · exact ih _ _
    · intro hc
      cases hc

theorem doubleCapacity_noFuel (h : MinHeap) : doubleCapacity h ≠ .error .outOfFuel := by
  unfold doubleCapacity
  simp only
  refine bind_noFuel _ _ (copyLoop_noFuel _ _ _ _ _) fun st _ => ?_
  refine bind_noFuel _ _ (fillNothing_noFuel _ _ _ _) fun _ _ => ?_
  exact pure_noFuel _

theorem bubbleUp_noFuel (h : MinHeap) (i : Int) : bubbleUp h i ≠ .error .outOfFuel :=
  bubbleUpAux_noFuel _ h i (Nat.lt_succ_self _)

theorem insert_noFuel (h : MinHeap) (p : Int) (v : Nat) :
    insert h p v ≠ .error .outOfFuel := by
  unfold insert
  simp only
  have tail : ∀ g : MinHeap,
      (readArr { g with size := g.size + 1 } (g.size + 1) >>= fun x =>
        writeArr { g with size := g.size + 1 } (g.size + 1) { x with priority := p } >>=
        fun heap => readArr heap heap.size >>= fun x =>
        writeArr heap heap.size { x with value := v } >>= fun heap =>
        readArr heap heap.size >>= fun x =>
        writeArr heap heap.size { x with id := heap.size } >>= fun heap =>
        writeMap heap heap.size heap.size >>= fun heap => bubbleUp heap heap.size)
        ≠ .error .outOfFuel := by
    intro g
    refine bind_noFuel _ _ (readArr_noFuel _ _) fun _ _ => ?_
    refine bind_noFuel _ _ (writeArr_noFuel _ _ _) fun _ _ => ?_
    refine bind_noFuel _ _ (readArr_noFuel _ _) fun _ _ => ?_
    refine bind_noFuel _ _ (writeArr_noFuel _ _ _) fun _ _ => ?_
    refine bind_noFuel _ _ (readArr_noFuel _ _) fun _ _ => ?_
    refine bind_noFuel _ _ (writeArr_noFuel _ _ _) fun _ _ => ?_
    refine bind_noFuel _ _ (writeMap_noFuel _ _ _) fun _ _ => ?_
    exact bubbleUp_noFuel _ _
  split_ifs
  · refine bind_noFuel _ _ (doubleCapacity_noFuel _) fun g _ => ?_
    exact tail g
  · exact tail h

theorem extractMin_noFuel (h : MinHeap) : extractMin h ≠ .error .outOfFuel := by
  unfold extractMin
  refine bind_noFuel _ _ (readArr_noFuel _ _) fun _ _ => ?_
  refine bind_noFuel _ _ (swap_noFuel _ _ _) fun _ _ => ?_
  refine bind_noFuel _ _ (writeMap_noFuel _ _ _) fun _ _ => ?_
  refine bind_noFuel _ _ (bubbleDown_noFuel _) fun _ _ => ?_
  exact pure_noFuel _

theorem decreasePriority_noFuel (h : MinHeap) (id np : Int) :
    decreasePriority h id np ≠ .error .outOfFuel := by
  unfold decreasePriority
  refine bind_noFuel _ _ (readMap_noFuel _ _) fun _ _ => ?_
  split_ifs
  · exact pure_noFuel _
  · refine bind_noFuel _ _ (priorityAt_noFuel _ _) fun _ _ => ?_
    split_ifs
    · exact pure_noFuel _
    · refine bind_noFuel _ _ (readArr_noFuel _ _) fun _ _ => ?_
      refine bind_noFuel _ _ (writeArr_noFuel _ _ _) fun _ _ => ?_
      refine bind_noFuel _ _ (bubbleUp_noFuel _ _) fun _ _ => ?_
      exact pure_noFuel _

/-- C18. Sift termination: on every heap state, whatever the index,
`bubbleUp` finishes within any budget above the index and the loop of
`bubbleDown` within any budget above `size - position`, so the budgets built
into `bubbleUp` and `bubbleDown` are never exhausted, and neither `insert`,
`extractMin` nor `decreasePriority` fails to terminate.  On a well-formed
heap the calls moreover return a state: `bubbleUp` and `bubbleDown` always,
`insert` when the capacity is positive, `extractMin` when the heap is not
empty, `decreasePriority` when the identifier and the position it is mapped
to lie inside the blocks. -/
theorem sift_termination (h : MinHeap) :
    (∀ (i : Int) (fuel : Nat), i.toNat < fuel → bubbleUpAux fuel h i ≠ .error .outOfFuel) ∧
    (∀ (r : Int) (fuel : Nat), (h.size - r).toNat < fuel →
      bubbleDownLoop fuel h r ≠ .error .outOfFuel) ∧
    (∀ i, bubbleUp h i ≠ .error .outOfFuel) ∧
    bubbleDown h ≠ .error .outOfFuel ∧
    (∀ p v, insert h p v ≠ .error .outOfFuel) ∧
    extractMin h ≠ .error .outOfFuel ∧
    (∀ id np, decreasePriority h id np ≠ .error .outOfFuel) ∧
    (WellFormed h →
      (∀ i, ∃ h', bubbleUp h i = .ok h') ∧
      (∃ h', bubbleDown h = .ok h') ∧
      (0 < h.capacity → ∀ p v, ∃ h', insert h p v = .ok h') ∧
      (0 < h.size → ∃ r h', extractMin h = .ok (r, h')) ∧
      (∀ id np, 0 ≤ id → id ≤ h.capacity →
        (h.indexMap id ≠ NOTHING → 0 ≤ h.indexMap id ∧ h.indexMap id ≤ h.capacity) →
        ∃ b h', decreasePriority h id np = .ok (b, h'))) := by
  refine ⟨fun i fuel hf => bubbleUpAux_noFuel fuel h i hf,
    fun r fuel hf => bubbleDownLoop_noFuel fuel h r hf, bubbleUp_noFuel h, bubbleDown_noFuel h,
    insert_noFuel h, extractMin_noFuel h, decreasePriority_noFuel h, fun wf => ?_⟩
  refine ⟨fun i => ⟨_, bubbleUp_eq h i wf⟩, ⟨_, bubbleDown_eq h wf⟩, fun hc p v => ?_,
    fun hs => ⟨_, _, extractMin_ok h wf hs⟩, fun id np h0 h1 hidx => ?_⟩
  · obtain ⟨h1, _, _, _, _, _, _, hrun⟩ := insert_ok h p v wf hc
    exact ⟨_, hrun⟩
  · exact ⟨_, _, decreasePriority_ok h id np wf h0 h1 hidx⟩

/-- Witness for C18: the three-node heap at the end of the sample run. -/
theorem sift_termination_witness :
    WellFormed demo5 ∧ (∀ i, ∃ h', bubbleUp demo5 i = .ok h') ∧
      (∃ h', bubbleDown demo5 = .ok h') ∧ ∃ r h', extractMin demo5 = .ok (r, h') :=
  ⟨(reachable_inv demo5 demo5_reachable).wf,
    ((sift_termination demo5).2.2.2.2.2.2.2 (reachable_inv demo5 demo5_reachable).wf).1,
    ((sift_termination demo5).2.2.2.2.2.2.2 (reachable_inv demo5 demo5_reachable).wf).2.1,
    ((sift_termination demo5).2.2.2.2.2.2.2 (reachable_inv demo5 demo5_reachable).wf).2.2.2.1
      (by decide)⟩

theorem mapExact_wellFormed {h : MinHeap} (m : MapExact h) : WellFormed h := by
  refine ⟨m.size_nonneg, m.size_le, fun p hp1 hp2 => ?_⟩
  have := m.fwd p hp1 hp2
  have := m.size_le
  omega

theorem mapExact_distinct {h : MinHeap} (m : MapExact h) : DistinctIds h := by
  intro p q hp1 hp2 hq1 hq2 hne he
  have a := (m.fwd p hp1 hp2).2.2
  have b := (m.fwd q hq1 hq2).2.2
  rw [he] at a
  omega

theorem swapState_mapExact (h : MinHeap) (a b : Int) (ha : 1 ≤ a ∧ a ≤ h.size)
    (hb : 1 ≤ b ∧ b ≤ h.size) (m : MapExact h) : MapExact (swapState h a b) := by
  have fa := m.fwd a ha.1 ha.2
  have fb := m.fwd b hb.1 hb.2
  refine ⟨m.size_nonneg, m.size_le, ?_, ?_, ?_⟩
  · intro p hp1 hp2
    simp only [swapState_size] at hp2 ⊢
    have fp := m.fwd p hp1 hp2
    rw [swapState_arr]
    by_cases h1 : p = b
    · rw [if_pos h1, swapState_indexMap, if_pos rfl]
      exact ⟨fa.1, fa.2.1, h1.symm⟩
    · rw [if_neg h1]
      by_cases h2 : p = a
      · rw [if_pos h2, swapState_indexMap]
        have hne : (h.arr b).id ≠ (h.arr a).id := by
          intro he
          have := fa.2.2
          rw [← he, fb.2.2] at this
          omega
        rw [if_neg hne, if_pos rfl]
        exact ⟨fb.1, fb.2.1, h2.symm⟩
      · rw [if_neg h2, swapState_indexMap]
        have hne1 : (h.arr p).id ≠ (h.arr a).id := by
          intro he
          have := fp.2.2
          rw [he, fa.2.2] at this
          omega
        have hne2 : (h.arr p).id ≠ (h.arr b).id := by
          intro he
          have := fp.2.2
          rw [he, fb.2.2] at this
          omega
        rw [if_neg hne1, if_neg hne2]
        exact fp
  · intro i hi1 hi2
    simp only [swapState_size] at hi2 ⊢
    have bi := m.bwd i hi1 hi2
    rw [swapState_indexMap]
    by_cases h1 : i = (h.arr a).id
    · rw [if_pos h1, swapState_arr, if_pos rfl]
      exact ⟨hb.1, hb.2, h1.symm⟩
    · rw [if_neg h1]
      by_cases h2 : i = (h.arr b).id
      · rw [if_pos h2, swapState_arr]
        have hab : a ≠ b := by
          intro e
          rw [e] at h1
          exact h1 h2
        rw [if_neg hab, if_pos rfl]
        exact ⟨ha.1, ha.2, h2.symm⟩
      · rw [if_neg h2, swapState_arr]
        have hq1 : h.indexMap i ≠ b := by
          intro e
          rw [e] at bi
          exact h2 bi.2.2.symm
        have hq2 : h.indexMap i ≠ a := by
          intro e
          rw [e] at bi
          exact h1 bi.2.2.symm
        rw [if_neg hq1, if_neg hq2]
        exact bi
  · intro i hi1 hi2
    simp only [swapState_size, swapState_capacity] at hi1 hi2
    rw [swapState_indexMap]
    have hne1 : i ≠ (h.arr a).id := by omega
    have hne2 : i ≠ (h.arr b).id := by omega
    rw [if_neg hne1, if_neg hne2]
    exact m.absent i hi1 hi2

theorem siftUp_mapExact (fuel : Nat) :
    ∀ (h : MinHeap) (i : Int), MapExact h → MapExact (siftUp fuel h i) := by
  induction fuel with
  | zero => intro h i m; exact m
  | succ f ih =>
    intro h i m
    rw [siftUp]
    split_ifs with hc
    · exact ih _ _ (swapState_mapExact h _ _ (by omega) (by omega) m)
    · exact m

theorem insertMid_mapExact (h : MinHeap) (p : Int) (v : Nat) (m : MapExact h)
    (hroom : h.size + 1 ≤ h.capacity) : MapExact (insertMid h p v) := by
  have hs0 := m.size_nonneg
  refine ⟨by simp only [insertMid]; omega, by simp only [insertMid]; exact hroom, ?_, ?_, ?_⟩
  · intro q hq1 hq2
    simp only [insertMid] at hq2 ⊢
    by_cases hq : q = h.size + 1
    · rw [hq, Function.update_same]
      refine ⟨?_, ?_, ?_⟩
      · show 1 ≤ h.size + 1
        omega
      · show h.size + 1 ≤ h.size + 1
        exact le_refl _
      · show Function.update h.indexMap (h.size + 1) (h.size + 1) (h.size + 1) = h.size + 1
        rw [Function.update_same]
    · rw [Function.update_noteq hq]
      have fq := m.fwd q hq1 (by omega)
      have hne : (h.arr q).id ≠ h.size + 1 := by omega
      rw [Function.update_noteq hne]
      omega
  · intro i hi1 hi2
    simp only [insertMid] at hi2 ⊢
    by_cases hi : i = h.size + 1
    · rw [hi, Function.update_same, Function.update_same]
      refine ⟨by omega, le_refl _, rfl⟩
    · rw [Function.update_noteq hi]
      have bi := m.bwd i hi1 (by omega)
      have hne : h.indexMap i ≠ h.size + 1 := by omega
      rw [Function.update_noteq hne]
      omega
  · intro i hi1 hi2
    simp only [insertMid] at hi1 hi2 ⊢
    have hne : i ≠ h.size + 1 := by omega
    rw [Function.update_noteq hne]
    exact m.absent i (by omega) hi2

theorem decreaseMid_mapExact (h : MinHeap) (index np : Int) (m : MapExact h) :
    MapExact (decreaseMid h index np) := by
  refine ⟨m.size_nonneg, m.size_le, ?_, ?_, ?_⟩
  · intro p hp1 hp2
    rw [decreaseMid_id]
    exact m.fwd p hp1 hp2
  · intro i hi1 hi2
    rw [decreaseMid_id]
    exact m.bwd i hi1 hi2
  · intro i hi1 hi2
    exact m.absent i hi1 hi2

theorem doubleCapacity_mapExact (h : MinHeap) (m : MapExact h) (hc : 0 < h.capacity) :
    ∃ h', doubleCapacity h = .ok h' ∧ MapExact h' ∧ h'.size = h.size ∧
      h'.capacity = h.capacity * 2 ∧ ∀ p, 1 ≤ p → p ≤ h.size → h'.arr p = h.arr p := by
  obtain ⟨h', hrun, hs, hcap, harr, hmap, hnot⟩ :=
    doubleCapacity_exact h (mapExact_wellFormed m) (mapExact_distinct m)
    (fun p hp1 hp2 => (m.fwd p hp1 hp2).2.1)
  have hs0 := m.size_nonneg
  have hsz := m.size_le
  have harr' : ∀ p, 1 ≤ p → p ≤ h.size → h'.arr p = h.arr p := by
    intro p hp1 hp2
    rw [harr p, if_pos ⟨hp1, hp2⟩]
  refine ⟨h', hrun, ⟨by omega, by omega, ?_, ?_, ?_⟩, hs, hcap, harr'⟩
  · intro p hp1 hp2
    rw [hs] at hp2 ⊢
    rw [harr' p hp1 hp2]
    have := m.fwd p hp1 hp2
    exact ⟨this.1, this.2.1, hmap p hp1 hp2⟩
  · intro i hi1 hi2
    rw [hs] at hi2 ⊢
    have bi := m.bwd i hi1 hi2
    have e : h'.indexMap i = h.indexMap i := by
      have := hmap (h.indexMap i) bi.1 bi.2.1
      rw [bi.2.2] at this
      exact this
    rw [e, harr' _ bi.1 bi.2.1]
    exact bi
  · intro i hi1 hi2
    rw [hs] at hi1
    rw [hcap] at hi2
    exact hnot i hi1 hi2

theorem noExtract_exact (log : List (Int × Nat)) (h : MinHeap)
    (hr : ReachableNoExtract log h) :
    MapExact h ∧ Logged log h ∧ h.size = log.length ∧ 0 < h.capacity := by
  induction hr with
  | init c h hc hrun =>
    obtain ⟨h0, hrun0, hs, hcap, _, hmap⟩ := newHeap_ok c (le_of_lt hc)
    rw [hrun] at hrun0
    injection hrun0 with e
    subst e
    refine ⟨⟨by omega, by omega, fun p hp1 hp2 => by omega, fun i hi1 hi2 => by omega,
      fun i hi1 hi2 => ?_⟩, ?_, by rw [hs]; rfl, by omega⟩
    · rw [hmap i, if_pos ⟨by omega, by omega⟩]
    · intro x hx
      obtain ⟨p, hp1, hp2, _⟩ := (mem_nodes _ x).1 hx
      omega
  | insert log h p v h' _ hrun ih =>
    obtain ⟨m, lg, hsize, hcpos⟩ := ih
    have hs0 := m.size_nonneg
    have hsz := m.size_le
    -- the state after the capacity test
    have hgrow : ∃ h1, (if h.size = h.capacity then doubleCapacity h else pure h) = .ok h1 ∧
        MapExact h1 ∧ h1.size = h.size ∧ h1.size + 1 ≤ h1.capacity ∧
        (∀ q, 1 ≤ q → q ≤ h.size → h1.arr q = h.arr q) := by
      by_cases hfull : h.size = h.capacity
      · obtain ⟨h1, hrun1, m1, hs1, hcap1, harr1⟩ := doubleCapacity_mapExact h m hcpos
        exact ⟨h1, by rw [if_pos hfull, hrun1], m1, hs1, by omega, harr1⟩
      · exact ⟨h, by rw [if_neg hfull]; rfl, m, rfl, by omega, fun _ _ _ => rfl⟩
    obtain ⟨h1, hg, m1, hs1, hroom, harr1⟩ := hgrow
    obtain ⟨_, hrun1⟩ :=
      insert_tail h h1 p v hg m1.size_nonneg hroom (mapExact_wellFormed m1).id_inBlock
    rw [hrun] at hrun1
    injection hrun1 with e
    subst e
    refine ⟨siftUp_mapExact _ _ _ (insertMid_mapExact h1 p v m1 hroom), ?_, ?_, ?_⟩
    · intro x hx
      have hx1 := (siftUp_nodes_perm _ _ _).subset hx
      rw [insertMid_nodes h h1 p v hs0 hs1 harr1, List.mem_append] at hx1
      rcases hx1 with hx1 | hx1
      · obtain ⟨e, he, hv, hp⟩ := lg x hx1
        refine ⟨e, ?_, hv, hp⟩
        have hlt : (x.id - 1).toNat < log.length := by
          by_contra hge
          rw [List.getElem?_eq_none (by omega)] at he
          cases he
        rw [List.getElem?_append_left hlt]
        exact he
      · rw [List.mem_singleton] at hx1
        subst hx1
        refine ⟨(p, v), ?_, rfl, le_refl _⟩
        have hidx : (h.size + 1 - 1).toNat = log.length := by omega
        show (log ++ [(p, v)])[(h.size + 1 - 1).toNat]? = some (p, v)
        rw [hidx]
        simp
    · rw [siftUp_size]
      simp only [insertMid, hs1, hsize, List.length_append, List.length_singleton]
      push_cast
      rfl
    · rw [siftUp_capacity]
      show 0 < h1.capacity
      omega
  | decreasePriority log h id np b h' _ h1 h2 hrun ih =>
    obtain ⟨m, lg, hsize, hcpos⟩ := ih
    have hidx : h.indexMap id ≠ NOTHING → 1 ≤ h.indexMap id ∧ h.indexMap id ≤ h.size := by
      intro hn
      by_cases hid : id ≤ h.size
      · have := m.bwd id h1 hid
        exact ⟨this.1, this.2.1⟩
      · exact absurd (m.absent id (by omega) h2) hn
    have hsz := m.size_le
    have hrun0 := decreasePriority_ok h id np (mapExact_wellFormed m) (by omega) h2 (fun hn => by
      have := hidx hn
      omega)
    rw [hrun] at hrun0
    injection hrun0 with e
    by_cases hn : h.indexMap id = NOTHING
    · rw [if_pos hn] at e
      injection e with _ e
      subst e
      exact ⟨m, lg, hsize, hcpos⟩
    · rw [if_neg hn] at e
      by_cases hgt : np > (h.arr (h.indexMap id)).priority
      · rw [if_pos hgt] at e
        injection e with _ e
        subst e
        exact ⟨m, lg, hsize, hcpos⟩
      · rw [if_neg hgt] at e
        injection e with _ e
        subst e
        have hv := hidx hn
        refine ⟨siftUp_mapExact _ _ _ (decreaseMid_mapExact h _ np m), ?_, ?_, ?_⟩
        · intro x hx
          have hx1 := (siftUp_nodes_perm _ _ _).subset hx
          obtain ⟨q, hq1, hq2, rfl⟩ := (mem_nodes _ x).1 hx1
          obtain ⟨e, he, hval, hp⟩ := lg (h.arr q) ((mem_nodes h _).2 ⟨q, hq1, hq2, rfl⟩)
          rw [decreaseMid_id]
          refine ⟨e, he, ?_, ?_⟩
          · simp only [decreaseMid]
            by_cases hq : q = h.indexMap id
            · rw [hq, Function.update_same]
              rw [hq] at hval
              exact hval
            · rw [Function.update_noteq hq]
              exact hval
          · simp only [decreaseMid]
            by_cases hq : q = h.indexMap id
            · rw [hq, Function.update_same]
              rw [hq] at hp
              show np ≤ e.1
              omega
            · rw [Function.update_noteq hq]
              exact hp
        · rw [siftUp_size]
          exact hsize
        · rw [siftUp_capacity]
          exact hcpos

theorem demo9_noExtract :
    ReachableNoExtract [(10, 100), (20, 200), (5, 500)] demo9 :=
  ReachableNoExtract.decreasePriority _ demo8 2 1 true demo9
    (ReachableNoExtract.insert _ demo2 5 500 demo8
      (ReachableNoExtract.insert _ demo1 20 200 demo2
        (ReachableNoExtract.insert _ demo0 10 100 demo1
          (ReachableNoExtract.init 2 demo0 (by decide) rfl) rfl) rfl) rfl)
    (by decide) (by decide) rfl

/-- C19. Without extraction the index map is an exact inverse: in every state
reached from `newHeap c`, `c > 0`, by `insert` and by `decreasePriority` with
identifiers in `1 .. capacity`, the size is the number of insertions, the
occupied nodes carry identifiers in `1 .. size`, every identifier in
`1 .. size` is carried at exactly one position, the index map sends the
identifier of every occupied node to its position and holds `NOTHING` for
every identifier above `size` up to the capacity, and the node carrying
identifier `k` has the payload of the `k`-th insertion and a priority no
larger than the one it was inserted with. -/
theorem mapping_exact_without_extraction (log : List (Int × Nat)) (h : MinHeap)
    (hr : ReachableNoExtract log h) :
    h.size = log.length ∧
    (∀ p, 1 ≤ p → p ≤ h.size → 1 ≤ (h.arr p).id ∧ (h.arr p).id ≤ h.size) ∧
    (∀ i, 1 ≤ i → i ≤ h.size → ∃ p, 1 ≤ p ∧ p ≤ h.size ∧ (h.arr p).id = i ∧
      ∀ q, 1 ≤ q → q ≤ h.size → (h.arr q).id = i → q = p) ∧
    (∀ p, 1 ≤ p → p ≤ h.size → h.indexMap (h.arr p).id = p) ∧
    (∀ i, h.size < i → i ≤ h.capacity → h.indexMap i = NOTHING) ∧
    (∀ (k : Nat) (hk : k < log.length), ∃ p, 1 ≤ p ∧ p ≤ h.size ∧
      (h.arr p).id = (k : Int) + 1 ∧ (h.arr p).value = (log.get ⟨k, hk⟩).2 ∧
      (h.arr p).priority ≤ (log.get ⟨k, hk⟩).1) := by
  obtain ⟨m, lg, hsize, _⟩ := noExtract_exact log h hr
  refine ⟨hsize, fun p hp1 hp2 => ⟨(m.fwd p hp1 hp2).1, (m.fwd p hp1 hp2).2.1⟩,
    fun i hi1 hi2 => ?_, fun p hp1 hp2 => (m.fwd p hp1 hp2).2.2, m.absent, fun k hk => ?_⟩
  · have bi := m.bwd i hi1 hi2
    refine ⟨h.indexMap i, bi.1, bi.2.1, bi.2.2, fun q hq1 hq2 hq => ?_⟩
    have := (m.fwd q hq1 hq2).2.2
    rw [hq] at this
    exact this.symm
  · have bi := m.bwd ((k : Int) + 1) (by omega) (by omega)
    obtain ⟨e, he, hv, hp⟩ := lg (h.arr (h.indexMap ((k : Int) + 1)))
      ((mem_nodes h _).2 ⟨_, bi.1, bi.2.1, rfl⟩)
    rw [bi.2.2] at he
    have hidx : ((k : Int) + 1 - 1).toNat = k := by omega
    rw [hidx, List.getElem?_eq_getElem hk] at he
    injection he with he
    refine ⟨_, bi.1, bi.2.1, bi.2.2, ?_, ?_⟩
    · rw [hv, ← he]
      rfl
    · rw [← he] at hp
      exact hp

/-- Witness for C19: `newHeap(2)`, `insert(10, 100)`, `insert(20, 200)`,
`insert(5, 500)`, which grows the heap, and `decreasePriority(2, 1)`. -/
theorem mapping_exact_without_extraction_witness :
    ReachableNoExtract [(10, 100), (20, 200), (5, 500)] demo9 ∧ demo9.size = 3 ∧
    (∀ p, 1 ≤ p → p ≤ demo9.size → demo9.indexMap (demo9.arr p).id = p) ∧
    (∀ i, demo9.size < i → i ≤ demo9.capacity → demo9.indexMap i = NOTHING) :=
  ⟨demo9_noExtract,
    (mapping_exact_without_extraction _ demo9 demo9_noExtract).1,
    (mapping_exact_without_extraction _ demo9 demo9_noExtract).2.2.2.1,
    (mapping_exact_without_extraction _ demo9 demo9_noExtract).2.2.2.2.1⟩

end MinHeapC
